import Mathlib

/-!
Verification development for the `curl_cffi` requests session layer
(`curl_cffi/requests/session.py`).

Python strings / bytes are embedded as `List Char` (the session code only
manipulates ASCII text).  Pure functions of the source are translated
directly; Python standard-library helpers used by the source
(`urllib.parse.unquote`, `quote_plus`, `parse_qsl`, `urlparse`,
`urlencode`, `json.dumps`, `bytes.splitlines`, `str.strip`, `str.lower`)
are modelled from their documented behaviour on ASCII input, since they
are external to the repository.  The stateful `Session.request` method is
embedded as a pure function from the session defaults and per-call
arguments to `Except PyError CurlConfig`, where `CurlConfig` records the
options that would be handed to the transport handle, and the `Except`
error reflects the exception raised (in source order).
-/

set_option autoImplicit false

namespace CurlCffi

/-- Python strings/bytes, embedded as lists of characters. -/
abbrev Str := List Char

/-- Coerce a Lean string literal to the embedding type. -/
def str (s : String) : Str := s.data

/-- ASCII decimal digit. -/
def isAsciiDigit (c : Char) : Bool := decide (48 ≤ c.toNat ∧ c.toNat ≤ 57)

/-- ASCII uppercase letter. -/
def isAsciiUpper (c : Char) : Bool := decide (65 ≤ c.toNat ∧ c.toNat ≤ 90)

/-- ASCII lowercase letter. -/
def isAsciiLower (c : Char) : Bool := decide (97 ≤ c.toNat ∧ c.toNat ≤ 122)

/-- ASCII letter. -/
def isAsciiAlpha (c : Char) : Bool := isAsciiUpper c || isAsciiLower c

/-- ASCII letter or digit. -/
def isAsciiAlphanum (c : Char) : Bool := isAsciiAlpha c || isAsciiDigit c

/-- Python `str.lower` for a single ASCII character. -/
def pyLowerChar (c : Char) : Char :=
  if isAsciiUpper c then Char.ofNat (c.toNat + 32) else c

/-- Python `str.lower` (ASCII). -/
def pyLower (s : Str) : Str := s.map pyLowerChar

/-- Whitespace characters stripped by Python `strip()`. -/
def isPyWs (c : Char) : Bool :=
  c = ' ' || c = '\t' || c = '\n' || c = '\r' || c = '\x0b' || c = '\x0c'

/-- Python `str.strip()` / `bytes.strip()` with no argument. -/
def pyStrip (s : Str) : Str :=
  ((s.dropWhile isPyWs).reverse.dropWhile isPyWs).reverse

/-- `s.startswith(p)`. -/
def startsW (p s : Str) : Bool := p.isPrefixOf s

/-- Value of a hex digit accepted by `urllib.parse.unquote`. -/
def hexVal (c : Char) : Option Nat :=
  if '0' ≤ c ∧ c ≤ '9' then some (c.toNat - 48)
  else if 'A' ≤ c ∧ c ≤ 'F' then some (c.toNat - 55)
  else if 'a' ≤ c ∧ c ≤ 'f' then some (c.toNat - 87)
  else none

/-- Uppercase hex digit, as produced by `urllib.parse.quote`. -/
def hexDigit (n : Nat) : Char :=
  if n < 10 then Char.ofNat (48 + n) else Char.ofNat (55 + n)

/-- `urllib.parse.unquote` on ASCII input: decode `%XX` escapes, leave
invalid escapes and `+` untouched. -/
def unquote : Str → Str
  | [] => []
  | ['%'] => ['%']
  | ['%', c1] => ['%', c1]
  | '%' :: c1 :: c2 :: rest2 =>
    match hexVal c1, hexVal c2 with
    | some h1, some h2 => Char.ofNat (16 * h1 + h2) :: unquote rest2
    | _, _ => '%' :: unquote (c1 :: c2 :: rest2)
  | c :: rest => c :: unquote rest

/-- Characters never quoted by `urllib.parse.quote_plus`. -/
def isUrlSafe (c : Char) : Bool :=
  isAsciiAlphanum c || c = '_' || c = '.' || c = '-' || c = '~'

/-- `urllib.parse.quote_plus` on one ASCII character. -/
def quotePlusChar (c : Char) : Str :=
  if c = ' ' then ['+']
  else if isUrlSafe c then [c]
  else ['%', hexDigit (c.toNat / 16), hexDigit (c.toNat % 16)]

/-- `urllib.parse.quote_plus` on ASCII input. -/
def quotePlus (s : Str) : Str := (s.map quotePlusChar).flatten

/-- Replace `+` by a space (first step of `unquote_plus`, used by
`parse_qsl` on names and values). -/
def plusToSpace (s : Str) : Str :=
  s.map (fun c => if c = '+' then ' ' else c)

/-- Split a string on every occurrence of a separator character,
producing `n + 1` (possibly empty) parts for `n` separators. -/
def splitOnChar (sep : Char) : Str → List Str
  | [] => [[]]
  | c :: rest =>
    if c = sep then [] :: splitOnChar sep rest
    else
      match splitOnChar sep rest with
      | [] => [[c]]
      | p :: ps => (c :: p) :: ps

/-- Split at the first occurrence of a character, if any
(Python `s.split(c, 1)` with two results). -/
def splitFirst (sep : Char) : Str → Option (Str × Str)
  | [] => none
  | c :: rest =>
    if c = sep then some ([], rest)
    else
      match splitFirst sep rest with
      | none => none
      | some (a, b) => some (c :: a, b)

/-- `urllib.parse.parse_qsl` with default arguments: split the query on
`&`, skip empty fields, skip fields without `=`, skip fields whose value
is empty, and `unquote_plus` both name and value. -/
def parse_qsl (qs : Str) : List (Str × Str) :=
  (splitOnChar '&' qs).filterMap fun field =>
    if field = [] then none
    else
      match splitFirst '=' field with
      | none => none
      | some (n, v) =>
        if v = [] then none
        else some (unquote (plusToSpace n), unquote (plusToSpace v))

/-- Python `dict` assignment `d[k] = v`: replace the value at the first
(and, for a genuine dict, only) occurrence of `k`, preserving its
position; otherwise append the new pair at the end. -/
def setKey {β : Type} : List (Str × β) → Str → β → List (Str × β)
  | [], k, v => [(k, v)]
  | (k0, v0) :: rest, k, v =>
    if k0 = k then (k0, v) :: rest else (k0, v0) :: setKey rest k v

/-- Build a Python `dict` from a pair list: first-insertion key order,
last assignment wins (`dict(pairs)`). -/
def pyDict {β : Type} (l : List (Str × β)) : List (Str × β) :=
  l.foldl (fun acc kv => setKey acc kv.1 kv.2) []

/-- Python `d.update(m)`: assign every pair of `m` into `d` in order. -/
def pyUpdate {β : Type} (d m : List (Str × β)) : List (Str × β) :=
  m.foldl (fun acc kv => setKey acc kv.1 kv.2) d

/-- Values a caller can put in a `params` dict: plain strings, booleans,
(string-valued) dicts, and sequences of strings.  Values parsed back out
of an existing query string are always `.str`. -/
inductive PVal where
  | str : Str → PVal
  | boolv : Bool → PVal
  | dictv : List (Str × Str) → PVal
  | seq : List Str → PVal
deriving DecidableEq, Repr

/-- `json.dumps` on a Python `bool`. -/
def jdumpsBool (b : Bool) : Str := if b then str "true" else str "false"

/-- `json.dumps` on a string-valued dict (ASCII content, no characters
needing JSON escaping), e.g. `dumps({"a": "b"}) = '\x7b"a": "b"\x7d'`. -/
def jdumpsStrDict (d : List (Str × Str)) : Str :=
  str "\x7b" ++
    (List.intercalate (str ", ")
      (d.map fun kv => str "\"" ++ kv.1 ++ str "\": \"" ++ kv.2 ++ str "\"")) ++
  str "\x7d"

/-- `json.dumps` of a `params` value, as used by `_update_url_params` on
`bool` and `dict` values. -/
def jdumpsPVal : PVal → Str
  | .boolv b => jdumpsBool b
  | .dictv d => jdumpsStrDict d
  | .str s => str "\"" ++ s ++ str "\""
  | .seq xs => str "[" ++ (List.intercalate (str ", ")
      (xs.map fun x => str "\"" ++ x ++ str "\"")) ++ str "]"

/-- The conversion step of `_update_url_params`: `bool` and `dict`
values are replaced by their `json.dumps` text; everything else is
left unchanged. -/
def jsonConvertVal : PVal → PVal
  | .boolv b => .str (jdumpsBool b)
  | .dictv d => .str (jdumpsStrDict d)
  | v => v

/-- Encoding of one dict item by `urllib.parse.urlencode(..., doseq=True)`
with `quote_via=quote_plus`: a string gives one `k=v` pair, a sequence
gives one pair per element, a bool is stringified (`str(True) = "True"`),
and a dict iterates over its keys. -/
def encOnePair : Str × PVal → List Str
  | (k, .str v) => [quotePlus k ++ '=' :: quotePlus v]
  | (k, .boolv b) =>
    [quotePlus k ++ '=' :: quotePlus (if b then str "True" else str "False")]
  | (k, .dictv d) => d.map fun kv => quotePlus k ++ '=' :: quotePlus kv.1
  | (k, .seq xs) => xs.map fun x => quotePlus k ++ '=' :: quotePlus x

/-- `urllib.parse.urlencode(l, doseq=True)`. -/
def urlencodeSeq (l : List (Str × PVal)) : Str :=
  List.intercalate ['&'] (l.flatMap encOnePair)

/-- `urllib.parse.urlencode` on a string-valued dict (`doseq=False`,
as used for the form body). -/
def urlencodePlain (l : List (Str × Str)) : Str :=
  List.intercalate ['&'] (l.map fun kv => quotePlus kv.1 ++ '=' :: quotePlus kv.2)

/-- Result of `urllib.parse.urlparse`. -/
structure ParseResult where
  scheme : Str
  netloc : Str
  path : Str
  params : Str
  query : Str
  fragment : Str
deriving DecidableEq, Repr

/-- Characters allowed in a URL scheme after the first letter. -/
def isSchemeChar (c : Char) : Bool :=
  isAsciiAlphanum c || c = '+' || c = '-' || c = '.'

/-- Split off `scheme:` when the prefix before the first `:` is a valid
scheme (starts with a letter, all scheme characters); the scheme is
lowercased, as in `urllib.parse.urlsplit`. -/
def splitScheme (url : Str) : Str × Str :=
  match splitFirst ':' url with
  | none => ([], url)
  | some (pre, rest) =>
    match pre with
    | [] => ([], url)
    | c :: _ =>
      if isAsciiAlpha c ∧ pre.all isSchemeChar then (pyLower pre, rest)
      else ([], url)

/-- Characters ending the netloc in `urlsplit`. -/
def isNetlocEnd (c : Char) : Bool := c = '/' || c = '?' || c = '#'

/-- Split `path;params` as `urllib.parse.urlparse` does: the parameters
are taken after the first `;` of the last path segment. -/
def splitParams (p : Str) : Str × Str :=
  if '/' ∈ p then
    match splitFirst '/' p.reverse with
    | none => (p, [])
    | some (revLast, revInit) =>
      -- p = revInit.reverse ++ '/' :: revLast.reverse, with no '/' in revLast.reverse
      match splitFirst ';' revLast.reverse with
      | none => (p, [])
      | some (a, b) => (revInit.reverse ++ '/' :: a, b)
  else
    match splitFirst ';' p with
    | none => (p, [])
    | some (a, b) => (a, b)

/-- The netloc step of `urlsplit`: after `//`, the netloc runs to the
next `/`, `?` or `#`. -/
def splitNetloc (rest : Str) : Str × Str :=
  if startsW (str "//") rest then
    ((rest.drop 2).takeWhile (fun c => !isNetlocEnd c),
     (rest.drop 2).dropWhile (fun c => !isNetlocEnd c))
  else ([], rest)

/-- The fragment step of `urlsplit`: split at the first `#`, if any. -/
def splitFragment (rest : Str) : Str × Str :=
  match splitFirst '#' rest with
  | some (a, b) => (a, b)
  | none => (rest, [])

/-- The query step of `urlsplit`: split at the first `?`, if any. -/
def splitQuery (rest : Str) : Str × Str :=
  match splitFirst '?' rest with
  | some (a, b) => (a, b)
  | none => (rest, [])

/-- `urllib.parse.urlparse`: scheme, then netloc after `//`, then the
fragment at the first `#`, then the query at the first `?`, then
`;params` out of the path. -/
def urlparse (url : Str) : ParseResult :=
  let sr := splitScheme url
  let nr := splitNetloc sr.2
  let fr := splitFragment nr.2
  let qr := splitQuery fr.1
  let pp := splitParams qr.1
  ⟨sr.1, nr.1, pp.1, pp.2, qr.2, fr.2⟩

/-- `ParseResult.geturl` (i.e. `urlunparse`). -/
def geturl (p : ParseResult) : Str :=
  (if p.scheme = [] then [] else p.scheme ++ [':']) ++
  (if p.netloc = [] ∧ ¬ startsW (str "//") p.path then [] else str "//" ++ p.netloc) ++
  p.path ++
  (if p.params = [] then [] else ';' :: p.params) ++
  (if p.query = [] then [] else '?' :: p.query) ++
  (if p.fragment = [] then [] else '#' :: p.fragment)

/-! ### `_update_url_params` (source lines 31–73) -/

/-- The merged argument dict of `_update_url_params`: existing query
arguments (via `dict(parse_qsl(...))`, so last value per key, first
position), updated with the supplied params, then `bool`/`dict` values
replaced by their JSON text. -/
def mergedArgs (url : Str) (params : List (Str × PVal)) : List (Str × PVal) :=
  let parsed := urlparse (unquote url)
  let base : List (Str × PVal) :=
    (pyDict (parse_qsl parsed.query)).map fun kv => (kv.1, PVal.str kv.2)
  (pyUpdate base params).map fun kv => (kv.1, jsonConvertVal kv.2)

/-- The rebuilt query string of `_update_url_params`. -/
def encoded_get_args (url : Str) (params : List (Str × PVal)) : Str :=
  urlencodeSeq (mergedArgs url params)

/-- `_update_url_params(url, params)` from the source: unquote the URL,
parse it, merge the query arguments with `params`, JSON-convert
bool/dict values, re-encode, and rebuild the URL. -/
def _update_url_params (url : Str) (params : List (Str × PVal)) : Str :=
  let parsed := urlparse (unquote url)
  geturl ⟨parsed.scheme, parsed.netloc, parsed.path, parsed.params,
          encoded_get_args url params, parsed.fragment⟩

/-! ### `_update_header_line` (source lines 76–82) -/

/-- `_update_header_line(header_lines, key, value)`: replace the first
line `l` with `l.lower().startswith(key + ":")` by `f"{key}: {value}"`,
else append that new line.  (The source lowercases the line but not the
key.) -/
def _update_header_line (lines : List Str) (key value : Str) : List Str :=
  match lines with
  | [] => [key ++ str ": " ++ value]
  | l :: rest =>
    if startsW (key ++ [':']) (pyLower l) then (key ++ str ": " ++ value) :: rest
    else l :: _update_header_line rest key value

/-! ### `Session.request` (source lines 137–320), configuration side -/

/-- Exceptions raised by `Session.request` before `perform()`:
`TypeError` for an unsupported `data` shape (line 179),
`NotImplementedError` for `files` (line 215), `KeyError` for a missing
proxy scheme key (lines 247/249), and the two `RequestsError`s: the
https-proxy misconfiguration (line 250, spec kind `ProxyBadScheme`) and
the unknown impersonation target (line 275, spec kind
`UnsupportedImpersonation`). -/
inductive PyError where
  | typeError
  | notImplementedError
  | keyError
  | proxyBadScheme
  | unsupportedImpersonation
deriving DecidableEq, Repr

/-- The `data` argument: `None`, a string-valued dict, a `BytesIO`
stream (its remaining bytes), raw bytes, or any other shape (which the
source rejects with `TypeError`). -/
inductive DataArg where
  | nonev
  | dict : List (Str × Str) → DataArg
  | stream : Str → DataArg
  | bytes : Str → DataArg
  | other
deriving DecidableEq, Repr

/-- A JSON body argument: a dict with string values (`None` when absent). -/
abbrev JDict := List (Str × Str)

/-- The `timeout` argument: a scalar number of seconds or a
`(connect, read)` pair.  Python floats are embedded as rationals. -/
inductive TimeoutV where
  | single : ℚ → TimeoutV
  | pair : ℚ → ℚ → TimeoutV
deriving DecidableEq, Repr

/-- Python `int(...)` on a rational: truncation toward zero. -/
def pyInt (q : ℚ) : ℤ := if 0 ≤ q then ⌊q⌋ else -⌊-q⌋

/-- Session-level defaults (`Session.__init__`).  The default `headers`
and `cookies` containers are external collaborators; their merged
outcome enters `request` as the `headerItems` argument below. -/
structure SessionArgs where
  params : Option (List (Str × PVal)) := none
  auth : Option (Str × Str) := none
  proxies : Option (List (Str × Str)) := none
  verify : Bool := true
  timeout : TimeoutV := .single 30
  max_redirects : ℤ := -1
  impersonate : Option Str := none
deriving Repr

/-- Per-call arguments of `Session.request`.  `headerItems` stands for
`h.multi_items()` after the session headers were merged with the
per-call headers and the cookie header was attached (lines 188–204);
the `Headers`/`Cookies` containers are external to this repository. -/
structure ReqArgs where
  method : Str
  url : Str
  params : Option (List (Str × PVal)) := none
  data : DataArg := .nonev
  json : Option JDict := none
  headerItems : List (Str × Str) := []
  files : Bool := false
  auth : Option (Str × Str) := none
  timeout : Option TimeoutV := none
  allow_redirects : Bool := true
  max_redirects : Option ℤ := none
  proxies : Option (List (Str × Str)) := none
  verify : Option Bool := none
  referer : Option Str := none
  accept_encoding : Option Str := some (str "gzip, deflate, br")
  impersonate : Option Str := none
deriving Repr

/-- The options set on the transport handle by one `request` call
(`none` = the corresponding `setopt` was not invoked). -/
structure CurlConfig where
  customrequest : Option Str := none
  url : Option Str := none
  postfields : Option Str := none
  postfieldsize : Option Nat := none
  httpheader : Option (List Str) := none
  username : Option Str := none
  password : Option Str := none
  connecttimeout_ms : Option ℤ := none
  timeout_ms : Option ℤ := none
  followlocation : Option ℤ := none
  maxredirs : Option ℤ := none
  proxy : Option Str := none
  httpproxytunnel : Option ℤ := none
  ssl_verifypeer : Option ℤ := none
  ssl_verifyhost : Option ℤ := none
  referer : Option Str := none
  accept_encoding : Option Str := none
  impersonate : Option Str := none
deriving DecidableEq, Repr

/-- Python truthiness of an optional dict. -/
def truthyD {β : Type} (o : Option (List β)) : Bool :=
  match o with
  | none => false
  | some l => !l.isEmpty

/-- Python truthiness of an optional string. -/
def truthyS (o : Option Str) : Bool :=
  match o with
  | none => false
  | some s => !s.isEmpty

/-- URL resolution (lines 162–166): apply the session params, then the
per-call params, each only when truthy. -/
def resolveUrl (sp cp : Option (List (Str × PVal))) (url : Str) : Str :=
  let u1 := if truthyD sp then _update_url_params url (sp.getD []) else url
  if truthyD cp then _update_url_params u1 (cp.getD []) else u1

/-- Python truthiness of the `json` argument (`if json:`). -/
def jtruthy (j : Option JDict) : Bool := truthyD j

/-- Body resolution (lines 170–181): dict → form-url-encoded, stream or
bytes → as-is, `None` → empty, anything else → `TypeError`; a truthy
`json` argument then overrides the body with its JSON serialization. -/
def resolveBody (data : DataArg) (json : Option JDict) : Except PyError Str :=
  match data with
  | .dict l =>
    .ok (if jtruthy json then jdumpsStrDict (json.getD []) else urlencodePlain l)
  | .stream b => .ok (if jtruthy json then jdumpsStrDict (json.getD []) else b)
  | .bytes b => .ok (if jtruthy json then jdumpsStrDict (json.getD []) else b)
  | .nonev => .ok (if jtruthy json then jdumpsStrDict (json.getD []) else [])
  | .other => .error .typeError

/-- Header-line construction (lines 202–210): serialize the merged
header items, then inject the JSON content type when `json` is truthy,
then the form content type when `data` is a dict. -/
def buildHeaderLines (items : List (Str × Str)) (json : Option JDict)
    (data : DataArg) : List Str :=
  let base := items.map fun kv => kv.1 ++ str ": " ++ kv.2
  let l1 :=
    if jtruthy json then
      _update_header_line base (str "Content-Type") (str "application/json")
    else base
  match data with
  | .dict _ =>
    _update_header_line l1 (str "Content-Type")
      (str "application/x-www-form-urlencoded")
  | _ => l1

/-- Auth resolution (lines 218–224): the per-call pair wins when given,
else the session pair; `none` when neither is set. -/
def resolveAuth (sa ca : Option (Str × Str)) : Option (Str × Str) :=
  match ca with
  | some a => some a
  | none => sa

/-- Timeout resolution (line 227): `timeout or self.timeout`, so a
scalar `0` is falsy and falls back to the session default, while any
tuple is truthy. -/
def resolveTimeout (call : Option TimeoutV) (sess : TimeoutV) : TimeoutV :=
  match call with
  | none => sess
  | some (.single q) => if q = 0 then sess else .single q
  | some (.pair a b) => .pair a b

/-- Timeout option values (lines 228–234): a pair sets
`CONNECTTIMEOUT_MS` and a cumulative `TIMEOUT_MS`; a scalar sets only
`TIMEOUT_MS`. -/
def applyTimeout (t : TimeoutV) : Option ℤ × Option ℤ :=
  match t with
  | .single q => (none, some (pyInt (q * 1000)))
  | .pair a b => (some (pyInt (a * 1000)), some (pyInt ((a + b) * 1000)))

/-- Max-redirects resolution (line 240): `max_redirects or
self.max_redirects`, so a per-call `0` is falsy and falls back. -/
def resolveMaxRedirects (call : Option ℤ) (sess : ℤ) : ℤ :=
  match call with
  | none => sess
  | some m => if m = 0 then sess else m

/-- Proxy-mapping resolution (lines 243–244): when the session mapping
is truthy, `{**self.proxies, **(proxies or {})}`; otherwise the per-call
mapping (or empty). -/
def resolveProxies (sp cp : Option (List (Str × Str))) : List (Str × Str) :=
  if truthyD sp then pyDict (sp.getD [] ++ cp.getD []) else cp.getD []

/-- The proxy configuration step (lines 245–256), returning the
`PROXY` and `HTTPPROXYTUNNEL` option values. -/
def proxyStep (url : Str) (eff : List (Str × Str)) :
    Except PyError (Option Str × Option ℤ) :=
  if eff.isEmpty then .ok (none, none)
  else if startsW (str "http://") url then
    match List.lookup (str "http") eff with
    | none => .error .keyError
    | some p => .ok (some p, none)
  else if startsW (str "https://") url then
    match List.lookup (str "https") eff with
    | none => .error .keyError
    | some p =>
      if startsW (str "https://") p then .error .proxyBadScheme
      else .ok (some p, if startsW (str "socks") p then none else some 1)
  else .ok (none, none)

/-- The member names of `BrowserType` (source lines 15–24); `
BrowserType.has(item)` is membership of `item` in this set. -/
def browserTypeNames : List Str :=
  [str "edge99", str "edge101", str "chrome99", str "chrome100",
   str "chrome101", str "chrome104", str "chrome99_android",
   str "safari15_3", str "safari15_5"]

/-- Impersonation resolution (line 272): `impersonate or
self.impersonate` with string truthiness. -/
def resolveImpersonate (call sess : Option Str) : Option Str :=
  if truthyS call then call else sess

/-- The impersonation step (lines 273–276): a truthy resolved tag must
be a `BrowserType` member name, else `RequestsError`. -/
def impStep (resolved : Option Str) : Except PyError (Option Str) :=
  if truthyS resolved then
    let t := resolved.getD []
    if t ∈ browserTypeNames then .ok (some t)
    else .error .unsupportedImpersonation
  else .ok none

/-- The configuration phase of `Session.request` (lines 137–281): every
`setopt` on the transport handle up to `perform()`, with the exceptions
raised in source order.  A fresh handle configuration is modelled per
call. -/
def request (s : SessionArgs) (r : ReqArgs) : Except PyError CurlConfig :=
  let url := resolveUrl s.params r.params r.url
  match resolveBody r.data r.json with
  | .error e => .error e
  | .ok body =>
    let lines := buildHeaderLines r.headerItems r.json r.data
    if r.files then .error .notImplementedError
    else
      let authPair := resolveAuth s.auth r.auth
      let tmo := applyTimeout (resolveTimeout r.timeout s.timeout)
      let maxr := resolveMaxRedirects r.max_redirects s.max_redirects
      match proxyStep url (resolveProxies s.proxies r.proxies) with
      | .error e => .error e
      | .ok proxyCfg =>
        let verifyOff :=
          r.verify = some false ∨ (¬ s.verify ∧ r.verify = none)
        match impStep (resolveImpersonate r.impersonate s.impersonate) with
        | .error e => .error e
        | .ok imp =>
          .ok
            { customrequest := some r.method
              url := some url
              postfields := if body = [] then none else some body
              postfieldsize := if body = [] then none else some body.length
              httpheader := some lines
              username := authPair.map Prod.fst
              password := authPair.map Prod.snd
              connecttimeout_ms := tmo.1
              timeout_ms := tmo.2
              followlocation := some (if r.allow_redirects then 1 else 0)
              maxredirs := some maxr
              proxy := proxyCfg.1
              httpproxytunnel := proxyCfg.2
              ssl_verifypeer := if verifyOff then some 0 else none
              ssl_verifyhost := if verifyOff then some 0 else none
              referer := if truthyS r.referer then r.referer else none
              accept_encoding := r.accept_encoding
              impersonate := imp }

/-! ### Response header reconstruction (source lines 293–306) -/

/-- `bytes.splitlines()`: split on `\r\n`, `\r` or `\n`, without keeping
the terminators and without a trailing empty line. -/
def pySplitlines : Str → List Str
  | [] => []
  | '\r' :: '\n' :: rest2 => [] :: pySplitlines rest2
  | '\r' :: rest => [] :: pySplitlines rest
  | '\n' :: rest => [] :: pySplitlines rest
  | c :: rest =>
    match pySplitlines rest with
    | [] => [[c]]
    | p :: ps => (c :: p) :: ps

/-- One step of the header-line scan: skip blank lines; a line starting
with `HTTP/` resets the accumulated header list and records that hop's
reason phrase (via the transport's `get_reason_phrase`, abstracted as
`rp`); any other line is appended to the current list. -/
def headerScanStep (rp : Str → Str) (st : List Str × Option Str)
    (line : Str) : List Str × Option Str :=
  if pyStrip line = [] then st
  else if startsW (str "HTTP/") line then ([], some (rp line))
  else (st.1 ++ [line], st.2)

/-- The header-line scan of lines 296–305 over a list of lines. -/
def processHeaderLines (rp : Str → Str) (lines : List Str) :
    List Str × Option Str :=
  lines.foldl (headerScanStep rp) ([], none)

/-- Reconstruction of the final response's header list and reason
phrase from the captured header byte stream (lines 293–306). -/
def reconstructHeaders (rp : Str → Str) (stream : Str) :
    List Str × Option Str :=
  processHeaderLines rp (pySplitlines stream)

/-- `rsp.ok` (line 292): `200 <= status_code < 400`. -/
def responseOk (status : ℤ) : Bool := 200 ≤ status ∧ status < 400

/-! ## Basic lemmas about the character-level models -/

theorem toNat_ofNat_or (n : ℕ) : (Char.ofNat n).toNat = n ∨ (Char.ofNat n).toNat = 0 := by
  unfold Char.ofNat
  split
  · exact Or.inl rfl
  · exact Or.inr rfl

theorem pyLowerChar_not_upper (c : Char) :
    ¬ (65 ≤ (pyLowerChar c).toNat ∧ (pyLowerChar c).toNat ≤ 90) := by
  unfold pyLowerChar isAsciiUpper
  split
  · rename_i h
    rw [decide_eq_true_eq] at h
    rcases toNat_ofNat_or (c.toNat + 32) with h2 | h2 <;> rw [h2] <;> omega
  · rename_i h
    rw [decide_eq_true_eq] at h
    omega

theorem ct_no_match (l : Str) :
    startsW (str "Content-Type" ++ [':']) (pyLower l) = false := by
  cases l with
  | nil => decide
  | cons c cs =>
    have h1 : str "Content-Type" ++ [':'] = 'C' :: str "ontent-Type:" := by decide
    have h2 : pyLower (c :: cs) = pyLowerChar c :: pyLower cs := rfl
    rw [h1, h2]
    show List.isPrefixOf _ _ = false
    have h3 : ('C' == pyLowerChar c) = false := by
      rw [beq_eq_false_iff_ne]
      intro hEq
      have h4 := pyLowerChar_not_upper c
      rw [← hEq] at h4
      exact h4 (by decide)
    simp [List.isPrefixOf, h3]

theorem update_header_line_ct (lines : List Str) (v : Str) :
    _update_header_line lines (str "Content-Type") v
      = lines ++ [str "Content-Type" ++ str ": " ++ v] := by
  induction lines with
  | nil => rfl
  | cons l rest ih =>
    have h := ct_no_match l
    unfold _update_header_line
    rw [h]
    simp only [Bool.false_eq_true, if_false, ih, List.cons_append]

theorem https_not_http {u : Str} (h : startsW (str "https://") u = true) :
    startsW (str "http://") u = false := by
  unfold startsW at h ⊢
  rw [List.isPrefixOf_iff_prefix] at h
  obtain ⟨t, ht⟩ := h
  rw [← ht]
  have e1 : str "https://" = 'h' :: 't' :: 't' :: 'p' :: 's' :: ':' :: '/' :: '/' :: [] := by
    decide
  have e2 : str "http://" = 'h' :: 't' :: 't' :: 'p' :: ':' :: '/' :: '/' :: [] := by
    decide
  rw [e1, e2]
  simp [List.isPrefixOf]

/-! ## Inversion of the `request` configuration pipeline -/

theorem request_ok_inv {s : SessionArgs} {r : ReqArgs} {cfg : CurlConfig}
    (h : request s r = .ok cfg) :
    ∃ body proxyCfg imp,
      resolveBody r.data r.json = .ok body ∧
      r.files = false ∧
      proxyStep (resolveUrl s.params r.params r.url)
        (resolveProxies s.proxies r.proxies) = .ok proxyCfg ∧
      impStep (resolveImpersonate r.impersonate s.impersonate) = .ok imp ∧
      cfg = { customrequest := some r.method
              url := some (resolveUrl s.params r.params r.url)
              postfields := if body = [] then none else some body
              postfieldsize := if body = [] then none else some body.length
              httpheader := some (buildHeaderLines r.headerItems r.json r.data)
              username := (resolveAuth s.auth r.auth).map Prod.fst
              password := (resolveAuth s.auth r.auth).map Prod.snd
              connecttimeout_ms := (applyTimeout (resolveTimeout r.timeout s.timeout)).1
              timeout_ms := (applyTimeout (resolveTimeout r.timeout s.timeout)).2
              followlocation := some (if r.allow_redirects then 1 else 0)
              maxredirs := some (resolveMaxRedirects r.max_redirects s.max_redirects)
              proxy := proxyCfg.1
              httpproxytunnel := proxyCfg.2
              ssl_verifypeer :=
                if r.verify = some false ∨ (¬ s.verify ∧ r.verify = none) then some 0
                else none
              ssl_verifyhost :=
                if r.verify = some false ∨ (¬ s.verify ∧ r.verify = none) then some 0
                else none
              referer := if truthyS r.referer then r.referer else none
              accept_encoding := r.accept_encoding
              impersonate := imp } := by
  unfold request at h
  cases hb : resolveBody r.data r.json with
  | error e => rw [hb] at h; simp at h
  | ok body =>
    rw [hb] at h
    simp only at h
    cases hf : r.files with
    | true => rw [hf] at h; simp at h
    | false =>
      rw [hf] at h
      simp only [Bool.false_eq_true, if_false] at h
      cases hp : proxyStep (resolveUrl s.params r.params r.url)
          (resolveProxies s.proxies r.proxies) with
      | error e => rw [hp] at h; simp at h
      | ok proxyCfg =>
        rw [hp] at h
        simp only at h
        cases hi : impStep (resolveImpersonate r.impersonate s.impersonate) with
        | error e => rw [hi] at h; simp at h
        | ok imp =>
          rw [hi] at h
          simp only [Except.ok.injEq] at h
          exact ⟨body, proxyCfg, imp, rfl, rfl, rfl, rfl, h.symm⟩

theorem resolveBody_ok {data : DataArg} (json : Option JDict)
    (h : data ≠ DataArg.other) : ∃ b, resolveBody data json = .ok b := by
  cases data with
  | other => exact absurd rfl h
  | dict l => exact ⟨_, rfl⟩
  | stream b => exact ⟨_, rfl⟩
  | bytes b => exact ⟨_, rfl⟩
  | nonev => exact ⟨_, rfl⟩

theorem lookup_ne_nil {β : Type} {eff : List (Str × β)} {k : Str} {p : β}
    (h : List.lookup k eff = some p) : eff.isEmpty = false := by
  cases eff with
  | nil => simp [List.lookup] at h
  | cons kv rest => rfl

theorem proxyStep_badscheme {url : Str} {eff : List (Str × Str)} {p : Str}
    (hurl : startsW (str "https://") url = true)
    (hl : List.lookup (str "https") eff = some p)
    (hp : startsW (str "https://") p = true) :
    proxyStep url eff = .error .proxyBadScheme := by
  unfold proxyStep
  rw [lookup_ne_nil hl, https_not_http hurl, hurl, hl]
  simp [hp]

theorem proxyStep_https_ok {url : Str} {eff : List (Str × Str)} {p : Str}
    {pc : Option Str × Option ℤ}
    (hurl : startsW (str "https://") url = true)
    (hl : List.lookup (str "https") eff = some p)
    (h : proxyStep url eff = .ok pc) :
    startsW (str "https://") p = false ∧
    pc = (some p, if startsW (str "socks") p = true then none else some 1) := by
  unfold proxyStep at h
  rw [lookup_ne_nil hl, https_not_http hurl, hurl, hl] at h
  simp only [Bool.false_eq_true, if_false, if_true] at h
  cases hps : startsW (str "https://") p with
  | true => rw [hps] at h; simp at h
  | false =>
    rw [hps] at h
    simp only [Bool.false_eq_true, if_false, Except.ok.injEq] at h
    exact ⟨rfl, h.symm⟩

/-- Helper for closed witness statements: read a field out of a
configuration result, with a default for the error case. -/
def cfgField {α : Type} (e : Except PyError CurlConfig) (f : CurlConfig → α)
    (d : α) : α :=
  match e with
  | .ok c => f c
  | .error _ => d

/-! ## C9: the configured verb -/

/-- C9 (counterexample): calling `request` with method `"get"` configures
the verb `"get"`, not its uppercase form `"GET"` — the source passes
`method` through unchanged (line 160), so the claim that the configured
verb is the uppercase form of the method string is false. -/
theorem c9_counterexample :
    cfgField (request { } { method := str "get", url := str "http://e/" })
        (fun c => c.customrequest) none = some (str "get")
    ∧ some (str "get") ≠ some (str "GET") := by
  constructor
  · decide
  · decide

/-- C9 (amended): the verb configured as the transport's custom request
method is exactly the method string as passed, with no case change. -/
theorem c9_method_configured_verbatim (s : SessionArgs) (r : ReqArgs)
    (cfg : CurlConfig) (h : request s r = .ok cfg) :
    cfg.customrequest = some r.method := by
  obtain ⟨body, pc, imp, _, _, _, _, hcfg⟩ := request_ok_inv h
  subst hcfg
  rfl

/-- Witness for C9: a concrete call with method `"patch"` configures the
verb `"patch"`. -/
theorem c9_method_configured_verbatim_witness :
    cfgField (request { } { method := str "patch", url := str "http://e/" })
      (fun c => c.customrequest) none = some (str "patch") := by
  have hne : (request { } { method := str "patch", url := str "http://e/" }).toOption
      ≠ none := by decide
  cases he : request { } { method := str "patch", url := str "http://e/" } with
  | error e => rw [he] at hne; exact absurd rfl hne
  | ok cfg =>
    have hm := c9_method_configured_verbatim _ _ _ he
    simp [cfgField, hm]

/-! ## C2: `_update_header_line` case sensitivity -/

/-- C2 (code evaluation at the failing input): the line name `Accept`
matches the key `Accept` case-insensitively, yet `_update_header_line`
appends a second line instead of replacing in place, because the source
lowercases the line but not the key (line 78), so the
`line.lower().startswith(key + ":")` test can never succeed for a key
containing an uppercase letter. -/
theorem c2_case_sensitivity_eval :
    _update_header_line [str "Accept: text/html"] (str "Accept") (str "x")
        = [str "Accept: text/html", str "Accept: x"]
    ∧ startsW (pyLower (str "Accept") ++ [':'])
        (pyLower (str "Accept: text/html")) = true := by
  constructor
  · decide
  · decide

/-! ## C6: timeout configuration -/

/-- C6: a resolved scalar timeout `t` configures a single total timeout
of `int(t*1000)` ms and no connect timeout; a resolved pair
`(connect, read)` configures `int(connect*1000)` ms for the connect
phase and `int((connect+read)*1000)` ms total. -/
theorem c6_timeout_configuration (s : SessionArgs) (r : ReqArgs)
    (cfg : CurlConfig) (h : request s r = .ok cfg) :
    (∀ t : ℚ, resolveTimeout r.timeout s.timeout = .single t →
       cfg.timeout_ms = some (pyInt (t * 1000)) ∧ cfg.connecttimeout_ms = none)
    ∧ (∀ a b : ℚ, resolveTimeout r.timeout s.timeout = .pair a b →
       cfg.connecttimeout_ms = some (pyInt (a * 1000)) ∧
       cfg.timeout_ms = some (pyInt ((a + b) * 1000))) := by
  obtain ⟨body, pc, imp, _, _, _, _, hcfg⟩ := request_ok_inv h
  subst hcfg
  constructor
  · intro t ht
    simp [ht, applyTimeout]
  · intro a b ht
    simp [ht, applyTimeout]

/-- Witness for C6: `timeout=(2, 5)` yields a 2000 ms connect bound and
a 7000 ms total bound. -/
theorem c6_timeout_configuration_witness :
    cfgField (request { }
        { method := str "GET", url := str "http://e/",
          timeout := some (.pair 2 5) })
      (fun c => (c.connecttimeout_ms, c.timeout_ms)) (none, none)
      = (some 2000, some 7000) := by
  have hne : (request { }
      { method := str "GET", url := str "http://e/",
        timeout := some (.pair 2 5) }).toOption ≠ none := by decide
  cases he : request { }
      { method := str "GET", url := str "http://e/",
        timeout := some (.pair 2 5) } with
  | error e => rw [he] at hne; exact absurd rfl hne
  | ok cfg =>
    have hm := (c6_timeout_configuration _ _ _ he).2 2 5 rfl
    simp only [cfgField, hm.1, hm.2]
    norm_num [pyInt]

/-! ## C10: falsy per-call overrides fall back -/

/-- C10: a per-call `timeout=0` and `max_redirects=0` are falsy, so both
resolve to the session defaults (`x or default` truthiness, lines 227
and 240): the configured timeout options are those of the session
timeout and the configured max-redirect count is the session value. -/
theorem c10_falsy_overrides (s : SessionArgs) (r : ReqArgs) (cfg : CurlConfig)
    (ht : r.timeout = some (.single 0)) (hm : r.max_redirects = some 0)
    (h : request s r = .ok cfg) :
    (cfg.connecttimeout_ms, cfg.timeout_ms) = applyTimeout s.timeout
    ∧ cfg.maxredirs = some s.max_redirects := by
  obtain ⟨body, pc, imp, _, _, _, _, hcfg⟩ := request_ok_inv h
  subst hcfg
  constructor
  · rw [ht]
    simp [resolveTimeout]
  · rw [hm]
    simp [resolveMaxRedirects]

/-- Witness for C10: with session defaults (timeout 30, max_redirects
−1), the per-call `timeout=0, max_redirects=0` produce a 30000 ms total
timeout and max-redirects −1. -/
theorem c10_falsy_overrides_witness :
    cfgField (request { }
        { method := str "GET", url := str "http://e/",
          timeout := some (.single 0), max_redirects := some 0 })
      (fun c => (c.connecttimeout_ms, c.timeout_ms, c.maxredirs))
      (none, none, none)
      = (none, some 30000, some (-1)) := by
  have hne : (request { }
      { method := str "GET", url := str "http://e/",
        timeout := some (.single 0), max_redirects := some 0 }).toOption
      ≠ none := by decide
  cases he : request { }
      { method := str "GET", url := str "http://e/",
        timeout := some (.single 0), max_redirects := some 0 } with
  | error e => rw [he] at hne; exact absurd rfl hne
  | ok cfg =>
    have hm := c10_falsy_overrides _ _ _ rfl rfl he
    have h1 : (cfg.connecttimeout_ms, cfg.timeout_ms) = (none, some 30000) := by
      rw [hm.1]
      norm_num [applyTimeout, pyInt]
    rw [Prod.mk.injEq] at h1
    have h2 : cfg.maxredirs = some (-1) := hm.2
    simp only [cfgField, h1.1, h1.2, h2]

/-! ## C5: unsupported impersonation -/

/-- C5: when the resolved impersonation tag (per-call else session, with
string truthiness) is a nonempty string outside the `BrowserType` member
set, `request` fails with the `UnsupportedImpersonation` error and the
transport never performs the request (provided the earlier steps did not
already raise: the body shape is valid, no files, and the proxy step
succeeded). -/
theorem c5_unsupported_impersonation (s : SessionArgs) (r : ReqArgs)
    (t : Str) (pr : Option Str × Option ℤ)
    (hd : r.data ≠ .other) (hf : r.files = false)
    (hp : proxyStep (resolveUrl s.params r.params r.url)
        (resolveProxies s.proxies r.proxies) = .ok pr)
    (hi : resolveImpersonate r.impersonate s.impersonate = some t)
    (hne : t ≠ []) (hmem : t ∉ browserTypeNames) :
    request s r = .error .unsupportedImpersonation := by
  obtain ⟨b, hb⟩ := resolveBody_ok r.json hd
  have hstep : impStep (resolveImpersonate r.impersonate s.impersonate)
      = .error .unsupportedImpersonation := by
    rw [hi]
    unfold impStep
    have htr : truthyS (some t) = true := by
      simp [truthyS, List.isEmpty_iff, hne]
    rw [htr]
    simp only [if_true, Option.getD_some]
    rw [if_neg hmem]
  unfold request
  rw [hb, hf]
  simp only [Bool.false_eq_true, if_false]
  rw [hp, hstep]

/-- Witness for C5: a concrete call with `impersonate="firefox99"`
fails with `UnsupportedImpersonation`. -/
theorem c5_unsupported_impersonation_witness :
    (request { }
      { method := str "GET", url := str "http://e/",
        impersonate := some (str "firefox99") })
      = .error .unsupportedImpersonation := by
  exact c5_unsupported_impersonation _ _ (str "firefox99") (none, none)
    (by decide) rfl rfl rfl (by decide) (by decide)

/-! ## C4: https proxy scheme validation -/

/-- C4: for an effective URL starting with `https://` whose effective
proxy mapping has an `https` entry `p`: if `p` itself starts with
`https://` the call fails with the `ProxyBadScheme` error (for any other
settings with a valid body shape and no files); otherwise, whenever the
call succeeds, `p` is configured as the proxy and, when `p` is not a
socks proxy, HTTP proxy tunneling is enabled. -/
theorem c4_https_proxy (s : SessionArgs) (r : ReqArgs) (p : Str)
    (hd : r.data ≠ .other) (hf : r.files = false)
    (hurl : startsW (str "https://") (resolveUrl s.params r.params r.url) = true)
    (hl : List.lookup (str "https") (resolveProxies s.proxies r.proxies) = some p) :
    (startsW (str "https://") p = true →
       request s r = .error .proxyBadScheme)
    ∧ (∀ cfg, request s r = .ok cfg →
       cfg.proxy = some p ∧
       (startsW (str "socks") p = false → cfg.httpproxytunnel = some 1)) := by
  constructor
  · intro hps
    obtain ⟨b, hb⟩ := resolveBody_ok r.json hd
    have hstep := proxyStep_badscheme hurl hl hps
    unfold request
    rw [hb, hf]
    simp only [Bool.false_eq_true, if_false]
    rw [hstep]
  · intro cfg hok
    obtain ⟨body, pc, imp, hb, hf', hp, hi, hcfg⟩ := request_ok_inv hok
    have hpc := proxyStep_https_ok hurl hl hp
    subst hcfg
    constructor
    · show pc.1 = some p
      rw [hpc.2]
    · intro hsocks
      show pc.2 = some 1
      rw [hpc.2]
      simp [hsocks]

/-- Witness for C4: a concrete https call with proxy value
`https://p:1` fails with `ProxyBadScheme`, and one with `http://p:1`
configures that proxy with tunneling enabled. -/
theorem c4_https_proxy_witness :
    ((request { }
      { method := str "GET", url := str "https://e/",
        proxies := some [(str "https", str "https://p:1")] })
      = .error .proxyBadScheme)
    ∧ cfgField (request { }
        { method := str "GET", url := str "https://e/",
          proxies := some [(str "https", str "http://p:1")] })
        (fun c => (c.proxy, c.httpproxytunnel)) (none, none)
      = (some (str "http://p:1"), some 1) := by
  constructor
  · exact (c4_https_proxy _ _ (str "https://p:1") (by decide) rfl (by decide)
      (by decide)).1 (by decide)
  · have hne : (request { }
        { method := str "GET", url := str "https://e/",
          proxies := some [(str "https", str "http://p:1")] }).toOption
        ≠ none := by decide
    cases he : request { }
        { method := str "GET", url := str "https://e/",
          proxies := some [(str "https", str "http://p:1")] } with
    | error e => rw [he] at hne; exact absurd rfl hne
    | ok cfg =>
      have hm := (c4_https_proxy _ _ (str "http://p:1") (by decide) rfl
        (by decide) (by decide)).2 cfg he
      simp [cfgField, hm.1, hm.2 (by decide)]

/-! ## C1: body and content-type resolution -/

theorem jdumpsStrDict_ne_nil (j : JDict) : jdumpsStrDict j ≠ [] := by
  unfold jdumpsStrDict
  intro h
  have : ('\x7b' : Char) ∈ ([] : Str) := by
    rw [← h]
    simp [str]
  simp at this

theorem urlencodePlain_ne_nil {l : List (Str × Str)} (h : l ≠ []) :
    urlencodePlain l ≠ [] := by
  unfold urlencodePlain
  cases l with
  | nil => exact absurd rfl h
  | cons kv rest =>
    simp only [List.map_cons, List.intercalate]
    intro hcon
    have : ('=' : Char) ∈ ([] : Str) := by
      rw [← hcon]
      cases rest <;> simp [List.intersperse]
    simp at this

/-- C1 (counterexample): with both a json object and a dict `data`, the
serialized header lines end with a `Content-Type:
application/x-www-form-urlencoded` line appended after the
`application/json` line, so `Content-Type` does not become
`application/json` as the claim states. -/
theorem c1_counterexample :
    cfgField (request { }
        { method := str "POST", url := str "http://e/",
          data := .dict [(str "a", str "b")], json := some [(str "x", str "y")] })
      (fun c => c.httpheader) none
      = some [str "Content-Type: application/json",
              str "Content-Type: application/x-www-form-urlencoded"]
    ∧ str "Content-Type: application/x-www-form-urlencoded"
        ≠ str "Content-Type: application/json" := by
  constructor
  · decide
  · decide

/-- C1 (amended): when both a nonempty json object and a dict `data`
are supplied, the body is the JSON serialization of the json object but
*both* content-type lines are appended (json first, then
form-urlencoded, since the form-data branch runs last and
`_update_header_line` never replaces a `Content-Type` line); with only a
nonempty form mapping, the body is its form-url-encoding and a
`Content-Type: application/x-www-form-urlencoded` line is appended; with
raw bytes or a byte stream and no json, no content-type line is
injected. -/
theorem c1_body_and_content_type (s : SessionArgs) (r : ReqArgs)
    (cfg : CurlConfig) (h : request s r = .ok cfg) :
    (∀ l j, r.data = .dict l → r.json = some j → j ≠ [] →
       cfg.postfields = some (jdumpsStrDict j) ∧
       cfg.httpheader = some ((r.headerItems.map fun kv => kv.1 ++ str ": " ++ kv.2)
         ++ [str "Content-Type: application/json",
             str "Content-Type: application/x-www-form-urlencoded"]))
    ∧ (∀ l, r.data = .dict l → l ≠ [] → jtruthy r.json = false →
       cfg.postfields = some (urlencodePlain l) ∧
       cfg.httpheader = some ((r.headerItems.map fun kv => kv.1 ++ str ": " ++ kv.2)
         ++ [str "Content-Type: application/x-www-form-urlencoded"]))
    ∧ (∀ b, (r.data = .bytes b ∨ r.data = .stream b) → jtruthy r.json = false →
       cfg.postfields = (if b = [] then none else some b) ∧
       cfg.httpheader = some (r.headerItems.map fun kv => kv.1 ++ str ": " ++ kv.2)) := by
  obtain ⟨body, pc, imp, hb, hf, hp, hi, hcfg⟩ := request_ok_inv h
  subst hcfg
  have ej : str "Content-Type" ++ str ": " ++ str "application/json"
      = str "Content-Type: application/json" := by decide
  have ef : str "Content-Type" ++ str ": " ++ str "application/x-www-form-urlencoded"
      = str "Content-Type: application/x-www-form-urlencoded" := by decide
  refine ⟨?_, ?_, ?_⟩
  · intro l j hdl hjs hjne
    have hjt : jtruthy (some j) = true := by
      simp [jtruthy, truthyD, List.isEmpty_iff, hjne]
    rw [hdl, hjs] at hb
    unfold resolveBody at hb
    rw [hjt] at hb
    simp only [if_true, Option.getD_some, Except.ok.injEq] at hb
    constructor
    · show (if body = [] then none else some body) = some (jdumpsStrDict j)
      rw [← hb, if_neg (jdumpsStrDict_ne_nil j)]
    · show some (buildHeaderLines r.headerItems r.json r.data) = _
      rw [hdl, hjs]
      unfold buildHeaderLines
      rw [hjt]
      simp only [if_true]
      rw [update_header_line_ct, update_header_line_ct, ej, ef]
      simp [List.append_assoc]
  · intro l hdl hlne hjf
    rw [hdl] at hb
    unfold resolveBody at hb
    rw [hjf] at hb
    simp only [Bool.false_eq_true, if_false, Except.ok.injEq] at hb
    constructor
    · show (if body = [] then none else some body) = some (urlencodePlain l)
      rw [← hb, if_neg (urlencodePlain_ne_nil hlne)]
    · show some (buildHeaderLines r.headerItems r.json r.data) = _
      rw [hdl]
      unfold buildHeaderLines
      rw [hjf]
      simp only [Bool.false_eq_true, if_false]
      rw [update_header_line_ct, ef]
  · intro b hdb hjf
    constructor
    · show (if body = [] then none else some body) = _
      rcases hdb with hdb | hdb <;>
        · rw [hdb] at hb
          unfold resolveBody at hb
          rw [hjf] at hb
          simp only [Bool.false_eq_true, if_false, Except.ok.injEq] at hb
          rw [← hb]
    · show some (buildHeaderLines r.headerItems r.json r.data) = _
      rcases hdb with hdb | hdb <;>
        · rw [hdb]
          unfold buildHeaderLines
          rw [hjf]
          simp only [Bool.false_eq_true, if_false]

/-- Witness for C1: three concrete calls, one per body case. -/
theorem c1_body_and_content_type_witness :
    (cfgField (request { }
        { method := str "POST", url := str "http://e/",
          data := .dict [(str "a", str "b")], json := some [(str "x", str "y")] })
      (fun c => (c.postfields, c.httpheader)) (none, none)
      = (some (str "\x7b\"x\": \"y\"\x7d"),
         some [str "Content-Type: application/json",
               str "Content-Type: application/x-www-form-urlencoded"]))
    ∧ (cfgField (request { }
        { method := str "POST", url := str "http://e/",
          data := .dict [(str "a", str "b c")] })
      (fun c => (c.postfields, c.httpheader)) (none, none)
      = (some (str "a=b+c"),
         some [str "Content-Type: application/x-www-form-urlencoded"]))
    ∧ (cfgField (request { }
        { method := str "POST", url := str "http://e/",
          data := .bytes (str "rawbody") })
      (fun c => (c.postfields, c.httpheader)) (none, none)
      = (some (str "rawbody"), some [])) := by
  refine ⟨?_, ?_, ?_⟩
  · have hne : (request { }
        { method := str "POST", url := str "http://e/",
          data := .dict [(str "a", str "b")],
          json := some [(str "x", str "y")] }).toOption ≠ none := by decide
    cases he : request { }
        { method := str "POST", url := str "http://e/",
          data := .dict [(str "a", str "b")],
          json := some [(str "x", str "y")] } with
    | error e => rw [he] at hne; exact absurd rfl hne
    | ok cfg =>
      have hm := (c1_body_and_content_type _ _ _ he).1 [(str "a", str "b")]
        [(str "x", str "y")] rfl rfl (by decide)
      simp only [cfgField, hm.1, hm.2]
      decide
  · have hne : (request { }
        { method := str "POST", url := str "http://e/",
          data := .dict [(str "a", str "b c")] }).toOption ≠ none := by decide
    cases he : request { }
        { method := str "POST", url := str "http://e/",
          data := .dict [(str "a", str "b c")] } with
    | error e => rw [he] at hne; exact absurd rfl hne
    | ok cfg =>
      have hm := (c1_body_and_content_type _ _ _ he).2.1 [(str "a", str "b c")]
        rfl (by decide) rfl
      simp only [cfgField, hm.1, hm.2]
      decide
  · have hne : (request { }
        { method := str "POST", url := str "http://e/",
          data := .bytes (str "rawbody") }).toOption ≠ none := by decide
    cases he : request { }
        { method := str "POST", url := str "http://e/",
          data := .bytes (str "rawbody") } with
    | error e => rw [he] at hne; exact absurd rfl hne
    | ok cfg =>
      have hm := (c1_body_and_content_type _ _ _ he).2.2 (str "rawbody")
        (Or.inl rfl) rfl
      simp only [cfgField, hm.1, hm.2]
      decide

/-! ## C3: redirect header-block isolation -/

theorem mem_dropWhile_of_not {p : Char → Bool} {s : Str} {c : Char}
    (hc : c ∈ s) (hp : p c = false) : c ∈ s.dropWhile p := by
  induction s with
  | nil => simp at hc
  | cons a rest ih =>
    rw [List.dropWhile_cons]
    rcases List.mem_cons.1 hc with hca | hcr
    · subst hca
      rw [hp]
      simp
    · cases hpa : p a with
      | true => simp only [if_true]; exact ih hcr
      | false => simp only [Bool.false_eq_true, if_false]; exact List.mem_cons_of_mem _ hcr

theorem pyStrip_ne_nil_of_mem {s : Str} {c : Char} (hc : c ∈ s)
    (hw : isPyWs c = false) : pyStrip s ≠ [] := by
  intro h
  unfold pyStrip at h
  rw [List.reverse_eq_nil_iff, List.dropWhile_eq_nil_iff] at h
  have h1 : c ∈ (s.dropWhile isPyWs).reverse :=
    List.mem_reverse.2 (mem_dropWhile_of_not hc hw)
  rw [h c h1] at hw
  simp at hw

theorem status_line_strip {sLine : Str}
    (h : startsW (str "HTTP/") sLine = true) : pyStrip sLine ≠ [] := by
  unfold startsW at h
  rw [List.isPrefixOf_iff_prefix] at h
  obtain ⟨t, ht⟩ := h
  have hH : ('H' : Char) ∈ sLine := by
    rw [← ht]
    have : str "HTTP/" = 'H' :: str "TTP/" := by decide
    rw [this]
    simp
  exact pyStrip_ne_nil_of_mem hH (by decide)

theorem headerScanStep_status (rp : Str → Str) (st : List Str × Option Str)
    {sLine : Str} (h : startsW (str "HTTP/") sLine = true) :
    headerScanStep rp st sLine = ([], some (rp sLine)) := by
  unfold headerScanStep
  rw [if_neg (status_line_strip h), h]
  simp

theorem processHeaderLines_reset (rp : Str → Str) (xs rest : List Str)
    {sLine : Str} (h : startsW (str "HTTP/") sLine = true) :
    processHeaderLines rp (xs ++ sLine :: rest)
      = processHeaderLines rp (sLine :: rest) := by
  unfold processHeaderLines
  rw [List.foldl_append]
  simp only [List.foldl_cons]
  rw [headerScanStep_status rp _ h, headerScanStep_status rp _ h]

theorem scan_no_status (rp : Str → Str) (rest : List Str)
    (h : ∀ l ∈ rest, startsW (str "HTTP/") l = false) :
    ∀ acc rz, List.foldl (headerScanStep rp) (acc, rz) rest
      = (acc ++ rest.filter (fun l => !(pyStrip l).isEmpty), rz) := by
  induction rest with
  | nil => intro acc rz; simp
  | cons l rest ih =>
    intro acc rz
    simp only [List.foldl_cons]
    have hstep : headerScanStep rp (acc, rz) l
        = if pyStrip l = [] then (acc, rz) else (acc ++ [l], rz) := by
      unfold headerScanStep
      by_cases hb : pyStrip l = []
      · rw [if_pos hb, if_pos hb]
      · rw [if_neg hb, if_neg hb, h l (List.mem_cons_self l rest)]
        simp
    rw [hstep]
    have hrest : ∀ x ∈ rest, startsW (str "HTTP/") x = false :=
      fun x hx => h x (List.mem_cons_of_mem l hx)
    by_cases hb : pyStrip l = []
    · rw [if_pos hb, ih hrest]
      have : (!(pyStrip l).isEmpty) = false := by
        rw [hb]; rfl
      simp [List.filter_cons, this]
    · rw [if_neg hb, ih hrest]
      have : (!(pyStrip l).isEmpty) = true := by
        cases hpl : pyStrip l with
        | nil => exact absurd hpl hb
        | cons a b => rfl
      simp [List.filter_cons, this]

/-- C3: in the captured header stream, every line starting with `HTTP/`
resets the accumulated header list and records that hop's reason phrase,
and blank lines are skipped; hence when the split stream is
`xs ++ sLine :: rest` with `sLine` a status line, the reconstruction
equals that of `sLine :: rest` alone (the earlier hops are discarded),
and when `rest` holds no further status line the final headers are
exactly the non-blank lines of `rest` with `sLine`'s reason phrase. -/
theorem c3_redirect_header_isolation (rp : Str → Str) (stream : Str)
    (xs rest : List Str) (sLine : Str)
    (hsplit : pySplitlines stream = xs ++ sLine :: rest)
    (hs : startsW (str "HTTP/") sLine = true) :
    reconstructHeaders rp stream = processHeaderLines rp (sLine :: rest)
    ∧ ((∀ l ∈ rest, startsW (str "HTTP/") l = false) →
       reconstructHeaders rp stream
         = (rest.filter (fun l => !(pyStrip l).isEmpty), some (rp sLine))) := by
  constructor
  · unfold reconstructHeaders
    rw [hsplit]
    exact processHeaderLines_reset rp xs rest hs
  · intro hrest
    unfold reconstructHeaders
    rw [hsplit, processHeaderLines_reset rp xs rest hs]
    unfold processHeaderLines
    simp only [List.foldl_cons]
    rw [headerScanStep_status rp _ hs, scan_no_status rp rest hrest]
    simp

/-- Witness for C3: a two-hop captured header stream (a 301 block then a
200 block) reconstructs headers and reason from the second block only. -/
theorem c3_redirect_header_isolation_witness :
    reconstructHeaders (fun l => l.drop 9)
        (str "HTTP/1.1 301 Moved\r\nLocation: /b\r\n\r\nHTTP/1.1 200 OK\r\nContent-Type: text/plain\r\n\r\n")
      = ([str "Content-Type: text/plain"], some (str "200 OK")) := by
  have h := (c3_redirect_header_isolation (fun l => l.drop 9)
      (str "HTTP/1.1 301 Moved\r\nLocation: /b\r\n\r\nHTTP/1.1 200 OK\r\nContent-Type: text/plain\r\n\r\n")
      [str "HTTP/1.1 301 Moved", str "Location: /b", []]
      [str "Content-Type: text/plain", []]
      (str "HTTP/1.1 200 OK")
      (by decide) (by decide)).2 (by decide)
  rw [h]
  decide

/-! ## Assoc-list lemmas for the Python dict model -/

theorem pyUpdate_nil {β : Type} (d : List (Str × β)) : pyUpdate d [] = d := rfl

theorem pyUpdate_cons {β : Type} (d : List (Str × β)) (k : Str) (v : β)
    (m : List (Str × β)) :
    pyUpdate d ((k, v) :: m) = pyUpdate (setKey d k v) m := rfl

theorem lookup_setKey_self {β : Type} (l : List (Str × β)) (k : Str) (v : β) :
    List.lookup k (setKey l k v) = some v := by
  induction l with
  | nil => simp [setKey, List.lookup]
  | cons kv rest ih =>
    obtain ⟨k0, v0⟩ := kv
    unfold setKey
    by_cases hk : k0 = k
    · rw [if_pos hk]
      subst hk
      simp [List.lookup]
    · rw [if_neg hk]
      have hb : (k == k0) = false := by simp [Ne.symm hk]
      simp [List.lookup, hb, ih]

theorem lookup_setKey_ne {β : Type} (l : List (Str × β)) {k k' : Str} (v : β)
    (hne : k' ≠ k) : List.lookup k' (setKey l k v) = List.lookup k' l := by
  induction l with
  | nil =>
    have hb : (k' == k) = false := by simp [hne]
    simp [setKey, List.lookup, hb]
  | cons kv rest ih =>
    obtain ⟨k0, v0⟩ := kv
    unfold setKey
    by_cases hk : k0 = k
    · rw [if_pos hk]
      subst hk
      have hb : (k' == k0) = false := by simp [hne]
      simp [List.lookup, hb]
    · rw [if_neg hk]
      simp [List.lookup, ih]

theorem lookup_pyUpdate_notmem {β : Type} {m : List (Str × β)} {k : Str}
    (hk : k ∉ m.map Prod.fst) :
    ∀ l, List.lookup k (pyUpdate l m) = List.lookup k l := by
  induction m with
  | nil => intro l; rfl
  | cons kv m' ih =>
    intro l
    obtain ⟨k0, v0⟩ := kv
    rw [pyUpdate_cons]
    simp only [List.map_cons, List.mem_cons] at hk
    push_neg at hk
    rw [ih hk.2, lookup_setKey_ne l v0 hk.1]

theorem lookup_pyUpdate_mem {β : Type} {m : List (Str × β)} {k : Str} {v : β}
    (hnd : (m.map Prod.fst).Nodup) (hmem : (k, v) ∈ m) :
    ∀ l, List.lookup k (pyUpdate l m) = some v := by
  induction m with
  | nil => simp at hmem
  | cons kv m' ih =>
    intro l
    obtain ⟨k0, v0⟩ := kv
    rw [pyUpdate_cons]
    simp only [List.map_cons, List.nodup_cons] at hnd
    rcases List.mem_cons.1 hmem with hh | ht
    · obtain ⟨hk, hv⟩ := Prod.mk.injEq .. ▸ hh
      subst hk; subst hv
      have hnot : k ∉ m'.map Prod.fst := hnd.1
      rw [lookup_pyUpdate_notmem hnot, lookup_setKey_self]
    · exact ih hnd.2 ht _

theorem mem_of_lookup_eq_some {β : Type} {l : List (Str × β)} {k : Str} {v : β}
    (h : List.lookup k l = some v) : (k, v) ∈ l := by
  induction l with
  | nil => simp [List.lookup] at h
  | cons kv rest ih =>
    obtain ⟨k0, v0⟩ := kv
    rw [List.lookup] at h
    by_cases hk : k0 = k
    · subst hk
      simp at h
      subst h
      exact List.mem_cons_self _ _
    · have hb : (k == k0) = false := by simp [Ne.symm hk]
      rw [hb] at h
      simp at h
      exact List.mem_cons_of_mem _ (ih h)

theorem mergedArgs_lookup {url : Str} {params : List (Str × PVal)} {k : Str}
    {v : PVal} (hnd : (params.map Prod.fst).Nodup) (hmem : (k, v) ∈ params) :
    (k, jsonConvertVal v) ∈ mergedArgs url params := by
  unfold mergedArgs
  have h1 := lookup_pyUpdate_mem hnd hmem
    ((pyDict (parse_qsl (urlparse (unquote url)).query)).map
      fun kv => (kv.1, PVal.str kv.2))
  have h2 := mem_of_lookup_eq_some h1
  exact List.mem_map_of_mem (fun kv => (kv.1, jsonConvertVal kv.2)) h2

/-! ## `quote_plus` character lemmas -/

theorem quotePlus_nil : quotePlus [] = [] := rfl

theorem quotePlus_cons (c : Char) (s : Str) :
    quotePlus (c :: s) = quotePlusChar c ++ quotePlus s := rfl

theorem quotePlus_benign {s : Str}
    (h : ∀ c ∈ s, isAsciiAlphanum c = true) : quotePlus s = s := by
  induction s with
  | nil => rfl
  | cons c cs ih =>
    rw [quotePlus_cons]
    have hc := h c (List.mem_cons_self c cs)
    have hsp : c ≠ ' ' := by
      intro hsp
      rw [hsp] at hc
      simp [isAsciiAlphanum, isAsciiAlpha, isAsciiUpper, isAsciiLower,
        isAsciiDigit] at hc
    have hsafe : isUrlSafe c = true := by
      unfold isUrlSafe
      rw [hc]
      rfl
    unfold quotePlusChar
    rw [if_neg hsp, if_pos hsafe, ih fun x hx => h x (List.mem_cons_of_mem c hx)]
    rfl

theorem hexDigit_toNat (n : ℕ) :
    (hexDigit n).toNat = 0 ∨ (48 ≤ (hexDigit n).toNat ∧ (hexDigit n).toNat ≤ 57)
    ∨ 65 ≤ (hexDigit n).toNat := by
  unfold hexDigit
  split
  · rcases toNat_ofNat_or (48 + n) with h | h <;> rw [h] <;> omega
  · rcases toNat_ofNat_or (55 + n) with h | h <;> rw [h] <;> omega

theorem notMem_quotePlus {c0 : Char} (h0 : c0.toNat ≠ 0) (h1 : c0.toNat < 65)
    (h2 : ¬(48 ≤ c0.toNat ∧ c0.toNat ≤ 57)) (hplus : c0 ≠ '+')
    (hpct : c0 ≠ '%') (hsafe : isUrlSafe c0 = false) (s : Str) :
    c0 ∉ quotePlus s := by
  intro hmem
  unfold quotePlus at hmem
  rw [List.mem_flatten] at hmem
  obtain ⟨part, hpart, hc⟩ := hmem
  rw [List.mem_map] at hpart
  obtain ⟨c, _, hpc⟩ := hpart
  subst hpc
  unfold quotePlusChar at hc
  split at hc
  · simp at hc
    exact hplus hc
  · split at hc
    · rename_i hs
      simp at hc
      subst hc
      rw [hs] at hsafe
      simp at hsafe
    · simp at hc
      rcases hc with hc | hc | hc
      · exact hpct hc
      · subst hc
        rcases hexDigit_toNat (c.toNat / 16) with h | h | h <;> omega
      · subst hc
        rcases hexDigit_toNat (c.toNat % 16) with h | h | h <;> omega

theorem amp_notMem_quotePlus (s : Str) : '&' ∉ quotePlus s :=
  notMem_quotePlus (by decide) (by decide) (by decide) (by decide) (by decide)
    (by decide) s

/-! ## Splitting the encoded query back into its parts -/

theorem splitOnChar_cons_self (sep : Char) (rest : Str) :
    splitOnChar sep (sep :: rest) = [] :: splitOnChar sep rest := by
  conv_lhs => unfold splitOnChar
  rw [if_pos rfl]

theorem splitOnChar_cons_ne (sep c : Char) (rest : Str) (hc : ¬ c = sep) :
    splitOnChar sep (c :: rest)
      = match splitOnChar sep rest with
        | [] => [[c]]
        | p :: ps => (c :: p) :: ps := by
  conv_lhs => unfold splitOnChar
  rw [if_neg hc]

theorem splitOnChar_no_sep {sep : Char} {s : Str} (h : sep ∉ s) :
    splitOnChar sep s = [s] := by
  induction s with
  | nil => rfl
  | cons c rest ih =>
    have hc : ¬ c = sep := by
      intro hc
      exact h (hc ▸ List.mem_cons_self c rest)
    rw [splitOnChar_cons_ne sep c rest hc, ih fun hm => h (List.mem_cons_of_mem c hm)]

theorem splitOnChar_append_cons {sep : Char} {a b : Str} (h : sep ∉ a) :
    splitOnChar sep (a ++ sep :: b) = a :: splitOnChar sep b := by
  induction a with
  | nil =>
    simp only [List.nil_append]
    exact splitOnChar_cons_self sep b
  | cons c rest ih =>
    have hc : ¬ c = sep := by
      intro hc
      exact h (hc ▸ List.mem_cons_self c rest)
    simp only [List.cons_append]
    rw [splitOnChar_cons_ne sep c _ hc, ih fun hm => h (List.mem_cons_of_mem c hm)]

theorem intercalate_cons_cons (sep x y : Str) (ys : List Str) :
    List.intercalate sep (x :: y :: ys) = x ++ sep ++ List.intercalate sep (y :: ys) := by
  simp [List.intercalate, List.intersperse]

theorem splitOnChar_intercalate_amp {ps : List Str} (hne : ps ≠ [])
    (h : ∀ p ∈ ps, '&' ∉ p) :
    splitOnChar '&' (List.intercalate ['&'] ps) = ps := by
  induction ps with
  | nil => exact absurd rfl hne
  | cons x ps' ih =>
    cases ps' with
    | nil =>
      have : List.intercalate ['&'] [x] = x := by
        simp [List.intercalate, List.intersperse]
      rw [this, splitOnChar_no_sep (h x (List.mem_cons_self x []))]
    | cons y ys =>
      rw [intercalate_cons_cons]
      have e1 : x ++ ['&'] ++ List.intercalate ['&'] (y :: ys)
          = x ++ '&' :: List.intercalate ['&'] (y :: ys) := by
        simp
      rw [e1, splitOnChar_append_cons (h x (List.mem_cons_self x _))]
      rw [ih (by simp) fun p hp => h p (List.mem_cons_of_mem x hp)]

theorem part_shape {kv : Str × PVal} {part : Str} (h : part ∈ encOnePair kv) :
    ∃ a b, part = quotePlus a ++ '=' :: quotePlus b := by
  obtain ⟨k, v⟩ := kv
  cases v with
  | str w =>
    simp only [encOnePair, List.mem_singleton] at h
    exact ⟨k, w, h⟩
  | boolv b =>
    simp only [encOnePair, List.mem_singleton] at h
    exact ⟨k, _, h⟩
  | dictv d =>
    simp only [encOnePair] at h
    rw [List.mem_map] at h
    obtain ⟨kv', _, hp⟩ := h
    exact ⟨k, kv'.1, hp.symm⟩
  | seq xs =>
    simp only [encOnePair] at h
    rw [List.mem_map] at h
    obtain ⟨x, _, hp⟩ := h
    exact ⟨k, x, hp.symm⟩

theorem amp_notMem_part {kv : Str × PVal} {part : Str}
    (h : part ∈ encOnePair kv) : '&' ∉ part := by
  obtain ⟨a, b, hab⟩ := part_shape h
  subst hab
  intro hmem
  rcases List.mem_append.1 hmem with hm | hm
  · exact amp_notMem_quotePlus a hm
  · rcases List.mem_cons.1 hm with hm | hm
    · simp at hm
    · exact amp_notMem_quotePlus b hm

theorem splitOnChar_urlencodeSeq {l : List (Str × PVal)}
    (hne : l.flatMap encOnePair ≠ []) :
    splitOnChar '&' (urlencodeSeq l) = l.flatMap encOnePair := by
  unfold urlencodeSeq
  refine splitOnChar_intercalate_amp hne ?_
  intro p hp
  rw [List.mem_flatMap] at hp
  obtain ⟨kv, _, hpart⟩ := hp
  exact amp_notMem_part hpart

/-! ## C7: value serialization of URL parameters -/

/-- C7: in the rebuilt query of `_update_url_params`, a boolean
parameter value appears as its JSON text (`False` is the literal text
`false`), a mapping value appears as the percent-encoding of its JSON
text, and a sequence value contributes one repeated `key=value` pair per
element (not a single encoded-list value). -/
theorem c7_param_value_serialization (url : Str) (params : List (Str × PVal))
    (k : Str) (hnd : (params.map Prod.fst).Nodup) :
    (∀ b : Bool, (k, PVal.boolv b) ∈ params →
       (quotePlus k ++ '=' :: jdumpsBool b)
         ∈ splitOnChar '&' (encoded_get_args url params))
    ∧ (∀ d, (k, PVal.dictv d) ∈ params →
       (quotePlus k ++ '=' :: quotePlus (jdumpsStrDict d))
         ∈ splitOnChar '&' (encoded_get_args url params))
    ∧ (∀ xs, (k, PVal.seq xs) ∈ params → xs ≠ [] →
       ∃ l1 l2, splitOnChar '&' (encoded_get_args url params)
         = l1 ++ (xs.map fun x => quotePlus k ++ '=' :: quotePlus x) ++ l2) := by
  refine ⟨?_, ?_, ?_⟩
  · intro b hmem
    have h1 : (k, PVal.str (jdumpsBool b)) ∈ mergedArgs url params :=
      mergedArgs_lookup hnd hmem
    have hqb : quotePlus (jdumpsBool b) = jdumpsBool b := by
      cases b <;> decide
    have hpart : (quotePlus k ++ '=' :: jdumpsBool b)
        ∈ (mergedArgs url params).flatMap encOnePair := by
      rw [List.mem_flatMap]
      refine ⟨(k, PVal.str (jdumpsBool b)), h1, ?_⟩
      simp [encOnePair, hqb]
    unfold encoded_get_args
    rw [splitOnChar_urlencodeSeq (List.ne_nil_of_mem hpart)]
    exact hpart
  · intro d hmem
    have h1 : (k, PVal.str (jdumpsStrDict d)) ∈ mergedArgs url params :=
      mergedArgs_lookup hnd hmem
    have hpart : (quotePlus k ++ '=' :: quotePlus (jdumpsStrDict d))
        ∈ (mergedArgs url params).flatMap encOnePair := by
      rw [List.mem_flatMap]
      exact ⟨(k, PVal.str (jdumpsStrDict d)), h1, by simp [encOnePair]⟩
    unfold encoded_get_args
    rw [splitOnChar_urlencodeSeq (List.ne_nil_of_mem hpart)]
    exact hpart
  · intro xs hmem hxs
    have h1 : (k, PVal.seq xs) ∈ mergedArgs url params :=
      mergedArgs_lookup hnd hmem
    obtain ⟨L1, L2, hsplit⟩ := List.append_of_mem h1
    have hflat : (mergedArgs url params).flatMap encOnePair
        = L1.flatMap encOnePair
          ++ (xs.map fun x => quotePlus k ++ '=' :: quotePlus x)
          ++ L2.flatMap encOnePair := by
      rw [hsplit]
      simp [encOnePair, List.flatMap_append]
    have hne : (mergedArgs url params).flatMap encOnePair ≠ [] := by
      rw [hflat]
      simp only [ne_eq, List.append_eq_nil, List.map_eq_nil_iff, not_and]
      intro h
      exact absurd h.2 (by simpa using hxs)
    unfold encoded_get_args
    rw [splitOnChar_urlencodeSeq hne, hflat]
    exact ⟨L1.flatMap encOnePair, L2.flatMap encOnePair, rfl⟩

/-- Witness for C7: on `http://e/t?a=1` with a `False`-valued, a
dict-valued and a sequence-valued parameter, the rebuilt query parts
contain `b=false`, `c=%7B%22u%22%3A+%22v%22%7D` and the repeated pair
block `d=x`, `d=y`. -/
theorem c7_param_value_serialization_witness :
    ((quotePlus (str "b") ++ '=' :: jdumpsBool false)
       ∈ splitOnChar '&' (encoded_get_args (str "http://e/t?a=1")
           [(str "b", PVal.boolv false)]))
    ∧ ((quotePlus (str "c") ++ '=' :: quotePlus (jdumpsStrDict [(str "u", str "v")]))
       ∈ splitOnChar '&' (encoded_get_args (str "http://e/t?a=1")
           [(str "c", PVal.dictv [(str "u", str "v")])]))
    ∧ (∃ l1 l2, splitOnChar '&' (encoded_get_args (str "http://e/t?a=1")
           [(str "d", PVal.seq [str "x", str "y"])])
         = l1 ++ ([str "x", str "y"].map fun x =>
             quotePlus (str "d") ++ '=' :: quotePlus x) ++ l2) := by
  refine ⟨?_, ?_, ?_⟩
  · exact (c7_param_value_serialization (str "http://e/t?a=1")
      [(str "b", PVal.boolv false)] (str "b") (by decide)).1 false (by decide)
  · exact (c7_param_value_serialization (str "http://e/t?a=1")
      [(str "c", PVal.dictv [(str "u", str "v")])] (str "c") (by decide)).2.1
      [(str "u", str "v")] (by decide)
  · exact (c7_param_value_serialization (str "http://e/t?a=1")
      [(str "d", PVal.seq [str "x", str "y"])] (str "d") (by decide)).2.2
      [str "x", str "y"] (by decide) (by decide)

/-! ## C8: lemma layer for the benign-URL round trip -/

/-- A benign string: ASCII letters and digits only. -/
abbrev Benign (s : Str) : Prop := ∀ c ∈ s, isAsciiAlphanum c = true

theorem alphanum_toNat {c : Char} (h : isAsciiAlphanum c = true) :
    (48 ≤ c.toNat ∧ c.toNat ≤ 57) ∨ (65 ≤ c.toNat ∧ c.toNat ≤ 90)
    ∨ (97 ≤ c.toNat ∧ c.toNat ≤ 122) := by
  unfold isAsciiAlphanum isAsciiAlpha isAsciiUpper isAsciiLower isAsciiDigit at h
  simp only [Bool.or_eq_true, decide_eq_true_eq] at h
  tauto

theorem alphanum_ne_special {c : Char} (h : isAsciiAlphanum c = true)
    {c0 : Char}
    (h0 : c0.toNat < 48 ∨ (57 < c0.toNat ∧ c0.toNat < 65)
      ∨ (90 < c0.toNat ∧ c0.toNat < 97) ∨ 122 < c0.toNat) : c ≠ c0 := by
  intro he
  subst he
  rcases alphanum_toNat h with h1 | h1 | h1 <;> omega

theorem lower_alphanum {c : Char} (h : isAsciiLower c = true) :
    isAsciiAlphanum c = true := by
  unfold isAsciiAlphanum isAsciiAlpha
  rw [h]
  simp

theorem lower_not_upper {c : Char} (h : isAsciiLower c = true) :
    isAsciiUpper c = false := by
  unfold isAsciiLower at h
  unfold isAsciiUpper
  rw [decide_eq_true_eq] at h
  rw [decide_eq_false_iff_not]
  omega

theorem map_id_of_eq {f : Char → Char} {s : Str} (h : ∀ c ∈ s, f c = c) :
    s.map f = s := by
  induction s with
  | nil => rfl
  | cons c rest ih =>
    simp only [List.map_cons, h c (List.mem_cons_self c rest),
      ih fun x hx => h x (List.mem_cons_of_mem c hx)]

theorem pyLower_id_of_lower {s : Str} (h : ∀ c ∈ s, isAsciiLower c = true) :
    pyLower s = s := by
  unfold pyLower
  refine map_id_of_eq ?_
  intro c hc
  unfold pyLowerChar
  rw [lower_not_upper (h c hc)]
  simp

theorem unquote_no_pct {s : Str} (h : '%' ∉ s) : unquote s = s := by
  induction s using unquote.induct with
  | case1 => rfl
  | case2 => simp at h
  | case3 => simp at h
  | case4 => simp at h
  | case5 => simp at h
  | case6 c rest h1 h2 h3 ih1 =>
    have hc : c ≠ '%' := fun he => h (he ▸ List.mem_cons_self c rest)
    have hr : '%' ∉ rest := fun hm => h (List.mem_cons_of_mem c hm)
    unfold unquote
    split
    · rename_i heq
      simp at heq
    · rename_i heq
      simp only [List.cons.injEq] at heq
      exact absurd heq.1 hc
    · rename_i heq
      simp only [List.cons.injEq] at heq
      exact absurd heq.1 hc
    · rename_i heq
      simp only [List.cons.injEq] at heq
      exact absurd heq.1 hc
    · rename_i c' rest' heq
      simp only [List.cons.injEq] at heq
      rw [← heq.1, ← heq.2, ih1 hr]

theorem plusToSpace_id {s : Str} (h : '+' ∉ s) : plusToSpace s = s := by
  unfold plusToSpace
  refine map_id_of_eq ?_
  intro c hc
  rw [if_neg]
  intro he
  exact h (he ▸ hc)

theorem splitFirst_cons_self (sep : Char) (rest : Str) :
    splitFirst sep (sep :: rest) = some ([], rest) := by
  conv_lhs => unfold splitFirst
  rw [if_pos rfl]

theorem splitFirst_cons_ne (sep c : Char) (rest : Str) (hc : ¬ c = sep) :
    splitFirst sep (c :: rest)
      = match splitFirst sep rest with
        | none => none
        | some (a, b) => some (c :: a, b) := by
  conv_lhs => unfold splitFirst
  rw [if_neg hc]

theorem splitFirst_no_sep {sep : Char} {s : Str} (h : sep ∉ s) :
    splitFirst sep s = none := by
  induction s with
  | nil => rfl
  | cons c rest ih =>
    have hc : ¬ c = sep := fun he => h (he ▸ List.mem_cons_self c rest)
    rw [splitFirst_cons_ne sep c rest hc,
      ih fun hm => h (List.mem_cons_of_mem c hm)]

theorem splitFirst_append {sep : Char} {a b : Str} (h : sep ∉ a) :
    splitFirst sep (a ++ sep :: b) = some (a, b) := by
  induction a with
  | nil => exact splitFirst_cons_self sep b
  | cons c rest ih =>
    have hc : ¬ c = sep := fun he => h (he ▸ List.mem_cons_self c rest)
    simp only [List.cons_append]
    rw [splitFirst_cons_ne sep c _ hc,
      ih fun hm => h (List.mem_cons_of_mem c hm)]

theorem splitFirst_eq_of_some {sep : Char} :
    ∀ {s a b : Str}, splitFirst sep s = some (a, b) →
    s = a ++ sep :: b ∧ sep ∉ a := by
  intro s
  induction s with
  | nil => intro a b h; simp [splitFirst] at h
  | cons c rest ih =>
    intro a b h
    by_cases hc : c = sep
    · subst hc
      rw [splitFirst_cons_self] at h
      simp only [Option.some.injEq, Prod.mk.injEq] at h
      rw [← h.1, ← h.2]
      exact ⟨rfl, by simp⟩
    · rw [splitFirst_cons_ne sep c rest hc] at h
      cases hrest : splitFirst sep rest with
      | none => rw [hrest] at h; simp at h
      | some ab =>
        obtain ⟨a', b'⟩ := ab
        rw [hrest] at h
        simp only [Option.some.injEq, Prod.mk.injEq] at h
        obtain ⟨hres, hnotin⟩ := ih hrest
        rw [← h.1, ← h.2, hres]
        constructor
        · simp
        · intro hm
          rcases List.mem_cons.1 hm with hm | hm
          · exact hc hm.symm
          · exact hnotin hm

theorem takeWhile_append_of_all {p : Char → Bool} {a : Str} {d : Char} (t : Str)
    (ha : ∀ c ∈ a, p c = true) (hd : p d = false) :
    (a ++ d :: t).takeWhile p = a ∧ (a ++ d :: t).dropWhile p = d :: t := by
  induction a with
  | nil =>
    simp only [List.nil_append, List.takeWhile_cons, List.dropWhile_cons, hd]
    simp
  | cons c rest ih =>
    have hc := ha c (List.mem_cons_self c rest)
    obtain ⟨ih1, ih2⟩ := ih fun x hx => ha x (List.mem_cons_of_mem c hx)
    simp only [List.cons_append, List.takeWhile_cons, List.dropWhile_cons, hc]
    simp only [if_true, ih1, ih2]
    simp

/-! ## C8: parsing and rebuilding benign URLs -/

/-- Characters that may occur in a benign raw query string. -/
abbrev QueryChar (c : Char) : Prop := isAsciiAlphanum c = true ∨ c = '=' ∨ c = '&'

/-- Characters that may occur in a benign path. -/
abbrev PathChar (c : Char) : Prop := isAsciiAlphanum c = true ∨ c = '/'

/-- The fragment tail of a constructed URL. -/
def fragPart (frag : Str) : Str := if frag = [] then [] else '#' :: frag

/-- A benign URL with scheme, host, absolute path, query and optional
fragment. -/
def mkUrl (scheme host path0 q frag : Str) : Str :=
  scheme ++ ':' :: '/' :: '/' :: (host ++ '/' :: (path0 ++ '?' :: (q ++ fragPart frag)))

/-- The raw (already benign, hence unencoded) query of a pair list. -/
def rawQuery (qp : List (Str × Str)) : Str :=
  List.intercalate ['&'] (qp.map fun kv => kv.1 ++ '=' :: kv.2)

theorem benign_no_special {s : Str} (hB : Benign s) {c0 : Char}
    (hc0 : isAsciiAlphanum c0 = false) : c0 ∉ s := by
  intro hm
  rw [hB c0 hm] at hc0
  exact Bool.noConfusion hc0

theorem pathChar_no {s : Str} (h : ∀ c ∈ s, PathChar c) {c0 : Char}
    (h1 : isAsciiAlphanum c0 = false) (h2 : c0 ≠ '/') : c0 ∉ s := by
  intro hm
  rcases h c0 hm with hc | hc
  · rw [hc] at h1; exact Bool.noConfusion h1
  · exact h2 hc

theorem queryChar_no {s : Str} (h : ∀ c ∈ s, QueryChar c) {c0 : Char}
    (h1 : isAsciiAlphanum c0 = false) (h2 : c0 ≠ '=') (h3 : c0 ≠ '&') :
    c0 ∉ s := by
  intro hm
  rcases h c0 hm with hc | hc | hc
  · rw [hc] at h1; exact Bool.noConfusion h1
  · exact h2 hc
  · exact h3 hc

theorem netlocEnd_false_of_alphanum {c : Char}
    (h : isAsciiAlphanum c = true) : isNetlocEnd c = false := by
  have h1 : c ≠ '/' := by intro he; rw [he] at h; exact absurd h (by decide)
  have h2 : c ≠ '?' := by intro he; rw [he] at h; exact absurd h (by decide)
  have h3 : c ≠ '#' := by intro he; rw [he] at h; exact absurd h (by decide)
  simp [isNetlocEnd, h1, h2, h3]

theorem schemeChar_of_lower {c : Char} (h : isAsciiLower c = true) :
    isSchemeChar c = true := by
  unfold isSchemeChar
  rw [lower_alphanum h]
  rfl

theorem splitScheme_mk {scheme rest0 : Str} (hsch : scheme ≠ [])
    (hschL : ∀ c ∈ scheme, isAsciiLower c = true) :
    splitScheme (scheme ++ ':' :: rest0) = (scheme, rest0) := by
  have hcolon : ':' ∉ scheme := by
    intro hm
    exact absurd (hschL _ hm) (by decide)
  unfold splitScheme
  rw [splitFirst_append hcolon]
  cases scheme with
  | nil => exact absurd rfl hsch
  | cons c stail =>
    simp only []
    have halpha : isAsciiAlpha c = true := by
      unfold isAsciiAlpha
      rw [hschL c (List.mem_cons_self c stail)]
      simp
    have hall : (c :: stail).all isSchemeChar = true := by
      rw [List.all_eq_true]
      intro x hx
      exact schemeChar_of_lower (hschL x hx)
    rw [if_pos ⟨halpha, hall⟩, pyLower_id_of_lower hschL]

theorem splitNetloc_mk (T1 : Str) {host : Str} (hhostB : Benign host) :
    splitNetloc ('/' :: '/' :: (host ++ '/' :: T1)) = (host, '/' :: T1) := by
  unfold splitNetloc
  have hsw : startsW (str "//") ('/' :: '/' :: (host ++ '/' :: T1)) = true := by
    have : str "//" = ['/', '/'] := by decide
    rw [startsW, this]
    simp [List.isPrefixOf]
  rw [hsw]
  simp only [if_true, List.drop_succ_cons, List.drop_zero]
  have hall : ∀ c ∈ host, (!isNetlocEnd c) = true := by
    intro c hc
    rw [netlocEnd_false_of_alphanum (hhostB c hc)]
    rfl
  have hstop : (!isNetlocEnd '/') = false := by decide
  obtain ⟨h1, h2⟩ := takeWhile_append_of_all T1 hall hstop
  rw [h1, h2]

theorem splitFragment_none {rest : Str} (h : '#' ∉ rest) :
    splitFragment rest = (rest, []) := by
  unfold splitFragment
  rw [splitFirst_no_sep h]

theorem splitFragment_mk {A frag : Str} (h : '#' ∉ A) :
    splitFragment (A ++ '#' :: frag) = (A, frag) := by
  unfold splitFragment
  rw [splitFirst_append h]

theorem splitQuery_mk {B q : Str} (h : '?' ∉ B) :
    splitQuery (B ++ '?' :: q) = (B, q) := by
  unfold splitQuery
  rw [splitFirst_append h]

theorem splitParams_no_semi {p : Str} (h : ';' ∉ p) :
    splitParams p = (p, []) := by
  unfold splitParams
  by_cases hs : '/' ∈ p
  · rw [if_pos hs]
    cases hsf : splitFirst '/' p.reverse with
    | none => rfl
    | some rl =>
      obtain ⟨revLast, revInit⟩ := rl
      simp only []
      have hnot : ';' ∉ revLast.reverse := by
        obtain ⟨hre, _⟩ := splitFirst_eq_of_some hsf
        intro hm
        have h1 : ';' ∈ revLast := List.mem_reverse.1 hm
        have h2 : ';' ∈ p.reverse := by
          rw [hre]
          exact List.mem_append_left _ h1
        exact h (List.mem_reverse.1 h2)
      rw [splitFirst_no_sep hnot]
  · rw [if_neg hs]
    have : ';' ∉ p := h
    rw [splitFirst_no_sep this]

/-- Parsing a benign constructed URL recovers its components. -/
theorem urlparse_mkUrl {scheme host path0 q frag : Str}
    (hsch : scheme ≠ []) (hschL : ∀ c ∈ scheme, isAsciiLower c = true)
    (hhostB : Benign host)
    (hpath : ∀ c ∈ path0, PathChar c)
    (hq : ∀ c ∈ q, QueryChar c)
    (hfrag : Benign frag) :
    urlparse (mkUrl scheme host path0 q frag)
      = ⟨scheme, host, '/' :: path0, [], q, frag⟩ := by
  have hsplit1 : splitScheme (mkUrl scheme host path0 q frag)
      = (scheme, '/' :: '/' :: (host ++ '/' :: (path0 ++ '?' :: (q ++ fragPart frag)))) := by
    unfold mkUrl
    exact splitScheme_mk hsch hschL
  have hsplit2 := splitNetloc_mk (path0 ++ '?' :: (q ++ fragPart frag)) hhostB
  have hnoq : '?' ∉ '/' :: path0 := by
    intro hm
    rcases List.mem_cons.1 hm with hm | hm
    · exact absurd hm (by decide)
    · exact pathChar_no hpath (by decide) (by decide) hm
  have hsplit3 : splitFragment ('/' :: (path0 ++ '?' :: (q ++ fragPart frag)))
      = ('/' :: (path0 ++ '?' :: q), frag) := by
    by_cases hf : frag = []
    · subst hf
      have hfp : fragPart ([] : Str) = [] := rfl
      rw [hfp, List.append_nil]
      refine splitFragment_none ?_
      intro hm
      rcases List.mem_cons.1 hm with hm | hm
      · exact absurd hm (by decide)
      · rcases List.mem_append.1 hm with hm | hm
        · exact pathChar_no hpath (by decide) (by decide) hm
        · rcases List.mem_cons.1 hm with hm | hm
          · exact absurd hm (by decide)
          · exact queryChar_no hq (by decide) (by decide) (by decide) hm
    · have hfp : fragPart frag = '#' :: frag := by
        unfold fragPart
        rw [if_neg hf]
      rw [hfp]
      have hshape : '/' :: (path0 ++ '?' :: (q ++ '#' :: frag))
          = ('/' :: (path0 ++ '?' :: q)) ++ '#' :: frag := by
        simp [List.append_assoc]
      rw [hshape]
      refine splitFragment_mk ?_
      intro hm
      rcases List.mem_cons.1 hm with hm | hm
      · exact absurd hm (by decide)
      · rcases List.mem_append.1 hm with hm | hm
        · exact pathChar_no hpath (by decide) (by decide) hm
        · rcases List.mem_cons.1 hm with hm | hm
          · exact absurd hm (by decide)
          · exact queryChar_no hq (by decide) (by decide) (by decide) hm
  have hsplit4 : splitQuery ('/' :: (path0 ++ '?' :: q)) = ('/' :: path0, q) := by
    have hshape : '/' :: (path0 ++ '?' :: q) = ('/' :: path0) ++ '?' :: q := by
      simp
    rw [hshape]
    exact splitQuery_mk hnoq
  have hsplit5 : splitParams ('/' :: path0) = ('/' :: path0, []) := by
    refine splitParams_no_semi ?_
    intro hm
    rcases List.mem_cons.1 hm with hm | hm
    · exact absurd hm (by decide)
    · exact pathChar_no hpath (by decide) (by decide) hm
  unfold urlparse
  rw [hsplit1]
  simp only []
  rw [hsplit2]
  simp only []
  rw [hsplit3]
  simp only []
  rw [hsplit4]
  simp only []
  rw [hsplit5]

/-- Rebuilding from benign components gives back the constructed URL. -/
theorem geturl_mk {scheme host path0 q frag : Str}
    (hsch : scheme ≠ []) (hhost : host ≠ []) (hq : q ≠ []) :
    geturl ⟨scheme, host, '/' :: path0, [], q, frag⟩
      = mkUrl scheme host path0 q frag := by
  unfold geturl mkUrl fragPart
  rw [show str "//" = ['/', '/'] from by decide]
  by_cases hf : frag = [] <;>
    simp [hsch, hhost, hq, hf, List.append_assoc]

/-! ## C8: the query round trip -/

theorem mem_intersperse {sep : Str} :
    ∀ {ps : List Str} {l : Str}, l ∈ List.intersperse sep ps → l = sep ∨ l ∈ ps
  | [], l, h => by simp [List.intersperse] at h
  | [a], l, h => by
    simp [List.intersperse] at h
    exact Or.inr (by simp [h])
  | a :: b :: t, l, h => by
    rw [List.intersperse_cons_cons] at h
    rcases List.mem_cons.1 h with h | h
    · exact Or.inr (h ▸ List.mem_cons_self a (b :: t))
    · rcases List.mem_cons.1 h with h | h
      · exact Or.inl h
      · rcases mem_intersperse h with h | h
        · exact Or.inl h
        · exact Or.inr (List.mem_cons_of_mem a h)

theorem mem_of_mem_intercalate {sep : Str} {ps : List Str} {c : Char}
    (h : c ∈ List.intercalate sep ps) : c ∈ sep ∨ ∃ p ∈ ps, c ∈ p := by
  unfold List.intercalate at h
  rw [List.mem_flatten] at h
  obtain ⟨l, hl, hc⟩ := h
  rcases mem_intersperse hl with hl | hl
  · exact Or.inl (hl ▸ hc)
  · exact Or.inr ⟨l, hl, hc⟩

theorem rawQuery_chars {qp : List (Str × Str)}
    (hqb : ∀ kv ∈ qp, kv.1 ≠ [] ∧ Benign kv.1 ∧ kv.2 ≠ [] ∧ Benign kv.2) :
    ∀ c ∈ rawQuery qp, QueryChar c := by
  intro c hc
  unfold rawQuery at hc
  rcases mem_of_mem_intercalate hc with hm | ⟨p, hp, hm⟩
  · right; right
    simpa using hm
  · rw [List.mem_map] at hp
    obtain ⟨kv, hkv, hpe⟩ := hp
    obtain ⟨_, hk, _, hv⟩ := hqb kv hkv
    subst hpe
    rcases List.mem_append.1 hm with hm | hm
    · exact Or.inl (hk c hm)
    · rcases List.mem_cons.1 hm with hm | hm
      · right; left; exact hm
      · exact Or.inl (hv c hm)

theorem rawQuery_ne_nil {qp : List (Str × Str)} (h : qp ≠ []) :
    rawQuery qp ≠ [] := by
  cases qp with
  | nil => exact absurd rfl h
  | cons kv rest =>
    unfold rawQuery
    cases rest with
    | nil =>
      simp only [List.map_cons, List.map_nil]
      have : List.intercalate ['&'] [kv.1 ++ '=' :: kv.2] = kv.1 ++ '=' :: kv.2 := by
        simp [List.intercalate, List.intersperse]
      rw [this]
      simp
    | cons kv2 rest2 =>
      simp only [List.map_cons]
      rw [intercalate_cons_cons]
      simp

theorem amp_notMem_rawPart {k v : Str} (hk : Benign k) (hv : Benign v) :
    '&' ∉ k ++ '=' :: v := by
  intro hm
  rcases List.mem_append.1 hm with hm | hm
  · exact benign_no_special hk (by decide) hm
  · rcases List.mem_cons.1 hm with hm | hm
    · exact absurd hm (by decide)
    · exact benign_no_special hv (by decide) hm

/-- The field function of `parse_qsl` maps a benign field back to its
pair. -/
theorem parse_qsl_field (k v : Str) (hk : Benign k) (hvne : v ≠ [])
    (hv : Benign v) :
    (if k ++ '=' :: v = [] then none
     else
       match splitFirst '=' (k ++ '=' :: v) with
       | none => none
       | some (n, w) =>
         if w = [] then none
         else some (unquote (plusToSpace n), unquote (plusToSpace w)))
      = some (k, v) := by
  have hne : k ++ '=' :: v ≠ [] := by simp
  rw [if_neg hne]
  have heq : '=' ∉ k := benign_no_special hk (by decide)
  rw [splitFirst_append heq]
  simp only [if_neg hvne]
  rw [plusToSpace_id (benign_no_special hk (by decide)),
    plusToSpace_id (benign_no_special hv (by decide)),
    unquote_no_pct (benign_no_special hk (by decide)),
    unquote_no_pct (benign_no_special hv (by decide))]

theorem parse_qsl_rawQuery {qp : List (Str × Str)}
    (hqb : ∀ kv ∈ qp, kv.1 ≠ [] ∧ Benign kv.1 ∧ kv.2 ≠ [] ∧ Benign kv.2) :
    parse_qsl (rawQuery qp) = qp := by
  cases hqp : qp with
  | nil => rfl
  | cons kv0 rest0 =>
    subst hqp
    unfold parse_qsl
    have hsplit : splitOnChar '&' (rawQuery (kv0 :: rest0))
        = (kv0 :: rest0).map (fun kv => kv.1 ++ '=' :: kv.2) := by
      unfold rawQuery
      refine splitOnChar_intercalate_amp (by simp) ?_
      intro p hp
      rw [List.mem_map] at hp
      obtain ⟨kv, hkv, hpe⟩ := hp
      obtain ⟨_, hk, _, hv⟩ := hqb kv hkv
      exact hpe ▸ amp_notMem_rawPart hk hv
    rw [hsplit, List.filterMap_map]
    have : ∀ (l : List (Str × Str)),
        (∀ kv ∈ l, kv.1 ≠ [] ∧ Benign kv.1 ∧ kv.2 ≠ [] ∧ Benign kv.2) →
        List.filterMap
          ((fun field =>
            if field = [] then none
            else
              match splitFirst '=' field with
              | none => none
              | some (n, w) =>
                if w = [] then none
                else some (unquote (plusToSpace n), unquote (plusToSpace w)))
            ∘ fun kv => kv.1 ++ '=' :: kv.2) l = l := by
      intro l hl
      induction l with
      | nil => rfl
      | cons kv rest ih =>
        obtain ⟨_, hk, hvne, hv⟩ := hl kv (List.mem_cons_self kv rest)
        rw [List.filterMap_cons]
        have hfield := parse_qsl_field kv.1 kv.2 hk hvne hv
        simp only [Function.comp]
        rw [hfield, ih fun x hx => hl x (List.mem_cons_of_mem kv hx)]
    exact this (kv0 :: rest0) hqb

/-! ## C8: dictionary machinery -/

theorem map_id_mem {α : Type} {f : α → α} {l : List α}
    (h : ∀ a ∈ l, f a = a) : l.map f = l := by
  induction l with
  | nil => rfl
  | cons a rest ih =>
    simp only [List.map_cons, h a (List.mem_cons_self a rest),
      ih fun x hx => h x (List.mem_cons_of_mem a hx)]

theorem mem_setKey {β : Type} {l : List (Str × β)} {k : Str} {v : β}
    {kv' : Str × β} (h : kv' ∈ setKey l k v) : kv' ∈ l ∨ kv' = (k, v) := by
  induction l with
  | nil =>
    simp [setKey] at h
    exact Or.inr h
  | cons kv0 rest ih =>
    obtain ⟨k0, v0⟩ := kv0
    unfold setKey at h
    by_cases hk : k0 = k
    · rw [if_pos hk] at h
      rcases List.mem_cons.1 h with h | h
      · subst hk
        exact Or.inr h
      · exact Or.inl (List.mem_cons_of_mem _ h)
    · rw [if_neg hk] at h
      rcases List.mem_cons.1 h with h | h
      · exact Or.inl (h ▸ List.mem_cons_self _ _)
      · rcases ih h with h | h
        · exact Or.inl (List.mem_cons_of_mem _ h)
        · exact Or.inr h

theorem keys_setKey {β : Type} (l : List (Str × β)) (k : Str) (v : β) :
    (setKey l k v).map Prod.fst
      = if k ∈ l.map Prod.fst then l.map Prod.fst
        else l.map Prod.fst ++ [k] := by
  induction l with
  | nil => simp [setKey]
  | cons kv0 rest ih =>
    obtain ⟨k0, v0⟩ := kv0
    unfold setKey
    by_cases hk : k0 = k
    · rw [if_pos hk]
      subst hk
      simp only [List.map_cons]
      rw [if_pos (List.mem_cons_self _ _)]
    · rw [if_neg hk]
      simp only [List.map_cons, ih]
      have hne : (k ∈ k0 :: rest.map Prod.fst) ↔ (k ∈ rest.map Prod.fst) := by
        constructor
        · intro hm
          rcases List.mem_cons.1 hm with hm | hm
          · exact absurd hm.symm hk
          · exact hm
        · exact List.mem_cons_of_mem k0
      by_cases hmem : k ∈ rest.map Prod.fst
      · rw [if_pos hmem, if_pos (hne.2 hmem)]
      · rw [if_neg hmem, if_neg (fun hm => hmem (hne.1 hm))]
        simp

theorem keys_setKey_mem {β : Type} (l : List (Str × β)) (k : Str) (v : β) :
    k ∈ (setKey l k v).map Prod.fst := by
  rw [keys_setKey]
  by_cases hmem : k ∈ l.map Prod.fst
  · rw [if_pos hmem]; exact hmem
  · rw [if_neg hmem]
    exact List.mem_append_right _ (List.mem_singleton.2 rfl)

theorem keys_setKey_superset {β : Type} {l : List (Str × β)} {k' : Str}
    (h : k' ∈ l.map Prod.fst) (k : Str) (v : β) :
    k' ∈ (setKey l k v).map Prod.fst := by
  rw [keys_setKey]
  by_cases hmem : k ∈ l.map Prod.fst
  · rw [if_pos hmem]; exact h
  · rw [if_neg hmem]; exact List.mem_append_left _ h

theorem nodupKeys_setKey {β : Type} {l : List (Str × β)} {k : Str} {v : β}
    (h : (l.map Prod.fst).Nodup) : ((setKey l k v).map Prod.fst).Nodup := by
  rw [keys_setKey]
  by_cases hmem : k ∈ l.map Prod.fst
  · rw [if_pos hmem]; exact h
  · rw [if_neg hmem]
    simp [List.nodup_append, h, hmem]

theorem setKey_append_of_notmem {β : Type} {l : List (Str × β)} {k : Str}
    (hk : k ∉ l.map Prod.fst) (v : β) : setKey l k v = l ++ [(k, v)] := by
  induction l with
  | nil => rfl
  | cons kv0 rest ih =>
    obtain ⟨k0, v0⟩ := kv0
    simp only [List.map_cons, List.mem_cons] at hk
    push_neg at hk
    unfold setKey
    rw [if_neg (fun he => hk.1 he.symm), ih hk.2]
    simp

theorem pyDict_go {β : Type} :
    ∀ (l acc : List (Str × β)), (((acc ++ l).map Prod.fst).Nodup) →
    List.foldl (fun a kv => setKey a kv.1 kv.2) acc l = acc ++ l := by
  intro l
  induction l with
  | nil => intro acc _; simp
  | cons kv rest ih =>
    intro acc hnd
    simp only [List.foldl_cons]
    have hk : kv.1 ∉ acc.map Prod.fst := by
      intro hm
      rw [List.map_append, List.nodup_append] at hnd
      exact hnd.2.2 hm
        (List.mem_map_of_mem Prod.fst (List.mem_cons_self kv rest))
    rw [setKey_append_of_notmem hk kv.2]
    have hnd2 : (((acc ++ [(kv.1, kv.2)]) ++ rest).map Prod.fst).Nodup := by
      have : (acc ++ [(kv.1, kv.2)]) ++ rest = acc ++ kv :: rest := by simp
      rw [this]
      exact hnd
    rw [ih (acc ++ [(kv.1, kv.2)]) hnd2]
    simp

theorem pyDict_id_of_nodup {β : Type} {l : List (Str × β)}
    (h : (l.map Prod.fst).Nodup) : pyDict l = l := by
  unfold pyDict
  have := pyDict_go l [] (by simpa using h)
  simpa using this

theorem mem_pyUpdate {β : Type} {m : List (Str × β)} :
    ∀ {l : List (Str × β)} {kv' : Str × β}, kv' ∈ pyUpdate l m →
    kv' ∈ l ∨ kv' ∈ m := by
  induction m with
  | nil => intro l kv' h; exact Or.inl h
  | cons kv m' ih =>
    intro l kv' h
    obtain ⟨k0, v0⟩ := kv
    rw [pyUpdate_cons] at h
    rcases ih h with h | h
    · rcases mem_setKey h with h | h
      · exact Or.inl h
      · exact Or.inr (h ▸ List.mem_cons_self _ _)
    · exact Or.inr (List.mem_cons_of_mem _ h)

theorem keys_pyUpdate_superset {β : Type} {m : List (Str × β)} :
    ∀ {l : List (Str × β)} {k' : Str}, k' ∈ l.map Prod.fst →
    k' ∈ (pyUpdate l m).map Prod.fst := by
  induction m with
  | nil => intro l k' h; exact h
  | cons kv m' ih =>
    intro l k' h
    obtain ⟨k0, v0⟩ := kv
    rw [pyUpdate_cons]
    exact ih (keys_setKey_superset h k0 v0)

theorem keys_pyUpdate_superset_args {β : Type} {m : List (Str × β)} :
    ∀ {l : List (Str × β)} {k' : Str}, k' ∈ m.map Prod.fst →
    k' ∈ (pyUpdate l m).map Prod.fst := by
  induction m with
  | nil => intro l k' h; simp at h
  | cons kv m' ih =>
    intro l k' h
    obtain ⟨k0, v0⟩ := kv
    rw [pyUpdate_cons]
    simp only [List.map_cons, List.mem_cons] at h
    rcases h with h | h
    · subst h
      exact keys_pyUpdate_superset (keys_setKey_mem l k' v0)
    · exact ih h

theorem keys_pyUpdate_eq {β : Type} {m : List (Str × β)} :
    ∀ {l : List (Str × β)}, (∀ k ∈ m.map Prod.fst, k ∈ l.map Prod.fst) →
    (pyUpdate l m).map Prod.fst = l.map Prod.fst := by
  induction m with
  | nil => intro l _; rfl
  | cons kv m' ih =>
    intro l h
    obtain ⟨k0, v0⟩ := kv
    rw [pyUpdate_cons]
    have hk0 : k0 ∈ l.map Prod.fst :=
      h k0 (List.mem_map_of_mem Prod.fst (List.mem_cons_self _ _))
    have hkeys : (setKey l k0 v0).map Prod.fst = l.map Prod.fst := by
      rw [keys_setKey, if_pos hk0]
    rw [ih, hkeys]
    intro k hk
    rw [hkeys]
    exact h k (List.mem_cons_of_mem _ hk)

theorem nodupKeys_pyUpdate {β : Type} {m : List (Str × β)} :
    ∀ {l : List (Str × β)}, (l.map Prod.fst).Nodup →
    ((pyUpdate l m).map Prod.fst).Nodup := by
  induction m with
  | nil => intro l h; exact h
  | cons kv m' ih =>
    intro l h
    obtain ⟨k0, v0⟩ := kv
    rw [pyUpdate_cons]
    exact ih (nodupKeys_setKey h)

theorem lookup_eq_none_of_notmem {β : Type} {l : List (Str × β)} {k : Str}
    (h : k ∉ l.map Prod.fst) : List.lookup k l = none := by
  induction l with
  | nil => rfl
  | cons kv rest ih =>
    obtain ⟨k0, v0⟩ := kv
    simp only [List.map_cons, List.mem_cons] at h
    push_neg at h
    have hb : (k == k0) = false := by simp [h.1]
    simp [List.lookup, hb, ih h.2]

theorem lookup_map_value {β γ : Type} (f : β → γ) (l : List (Str × β))
    (k : Str) :
    List.lookup k (l.map fun kv => (kv.1, f kv.2)) = (List.lookup k l).map f := by
  induction l with
  | nil => rfl
  | cons kv rest ih =>
    obtain ⟨k0, v0⟩ := kv
    by_cases hk : k = k0
    · subst hk
      simp [List.lookup]
    · have hb : (k == k0) = false := by simp [hk]
      simp [List.lookup, hb, ih]

theorem keys_map_value {β γ : Type} (f : β → γ) (l : List (Str × β)) :
    (l.map fun kv => (kv.1, f kv.2)).map Prod.fst = l.map Prod.fst := by
  induction l with
  | nil => rfl
  | cons kv rest ih => simp [ih]

theorem list_eq_of_keys_lookup {β : Type} :
    ∀ {l1 l2 : List (Str × β)}, l1.map Prod.fst = l2.map Prod.fst →
    (l1.map Prod.fst).Nodup → (∀ k, List.lookup k l1 = List.lookup k l2) →
    l1 = l2 := by
  intro l1
  induction l1 with
  | nil =>
    intro l2 hkeys _ _
    cases l2 with
    | nil => rfl
    | cons kv t => simp at hkeys
  | cons kv t1 ih =>
    intro l2 hkeys hnd hlook
    obtain ⟨k0, v0⟩ := kv
    cases l2 with
    | nil => simp at hkeys
    | cons kv2 t2 =>
      obtain ⟨k2, v2⟩ := kv2
      simp only [List.map_cons, List.cons.injEq] at hkeys
      obtain ⟨hk02, htkeys⟩ := hkeys
      subst hk02
      have hv : v0 = v2 := by
        have := hlook k0
        simp [List.lookup] at this
        exact this
      subst hv
      simp only [List.map_cons, List.nodup_cons] at hnd
      have htl : t1 = t2 := by
        refine ih htkeys hnd.2 ?_
        intro k
        by_cases hk : k = k0
        · subst hk
          rw [lookup_eq_none_of_notmem hnd.1,
            lookup_eq_none_of_notmem (htkeys ▸ hnd.1)]
        · have := hlook k
          have hb : (k == k0) = false := by simp [hk]
          simpa [List.lookup, hb] using this
      rw [htl]

/-! ## C8: encoding a merged list whose values are all benign strings -/

/-- The string carried by a string-valued `PVal`. -/
def pvalStr : PVal → Str
  | .str s => s
  | _ => []

theorem flatMap_eq_map {α β : Type} {l : List α} {f : α → List β} {g : α → β}
    (h : ∀ x ∈ l, f x = [g x]) : l.flatMap f = l.map g := by
  induction l with
  | nil => rfl
  | cons x rest ih =>
    rw [List.flatMap_cons, List.map_cons, h x (List.mem_cons_self x rest),
      ih fun y hy => h y (List.mem_cons_of_mem x hy)]
    rfl

theorem urlencodeSeq_eq_rawQuery {l : List (Str × PVal)}
    (h : ∀ kv ∈ l, ∃ w, kv.2 = PVal.str w ∧ Benign kv.1 ∧ Benign w) :
    urlencodeSeq l = rawQuery (l.map fun kv => (kv.1, pvalStr kv.2)) := by
  unfold urlencodeSeq rawQuery
  rw [List.map_map]
  congr 1
  refine flatMap_eq_map ?_
  intro kv hkv
  obtain ⟨w, hw, hbk, hbw⟩ := h kv hkv
  obtain ⟨k, v⟩ := kv
  simp only at hw
  subst hw
  simp [encOnePair, quotePlus_benign hbk, quotePlus_benign hbw, pvalStr,
    Function.comp]

theorem pct_notMem_mkUrl {scheme host path0 q frag : Str}
    (hschL : ∀ c ∈ scheme, isAsciiLower c = true) (hhostB : Benign host)
    (hpath : ∀ c ∈ path0, PathChar c) (hq : ∀ c ∈ q, QueryChar c)
    (hfrag : Benign frag) : '%' ∉ mkUrl scheme host path0 q frag := by
  intro hm
  unfold mkUrl at hm
  rcases List.mem_append.1 hm with hm | hm
  · exact absurd (hschL _ hm) (by decide)
  rcases List.mem_cons.1 hm with hm | hm
  · exact absurd hm (by decide)
  rcases List.mem_cons.1 hm with hm | hm
  · exact absurd hm (by decide)
  rcases List.mem_cons.1 hm with hm | hm
  · exact absurd hm (by decide)
  rcases List.mem_append.1 hm with hm | hm
  · exact benign_no_special hhostB (by decide) hm
  rcases List.mem_cons.1 hm with hm | hm
  · exact absurd hm (by decide)
  rcases List.mem_append.1 hm with hm | hm
  · exact pathChar_no hpath (by decide) (by decide) hm
  rcases List.mem_cons.1 hm with hm | hm
  · exact absurd hm (by decide)
  rcases List.mem_append.1 hm with hm | hm
  · exact queryChar_no hq (by decide) (by decide) (by decide) hm
  unfold fragPart at hm
  by_cases hf : frag = []
  · rw [if_pos hf] at hm
    simp at hm
  · rw [if_neg hf] at hm
    rcases List.mem_cons.1 hm with hm | hm
    · exact absurd hm (by decide)
    · exact benign_no_special hfrag (by decide) hm

/-! ## C8: counterexample and amended theorem -/

/-- C8 (counterexample): `_update_url_params` is not idempotent.  On
`http://x/p?a=%2526` with params `{z: "1"}`, the first application
decodes `%2526` once to `%26` and re-encodes the parsed value `&` as
`a=%26`; the second application decodes that to a literal `&`, which
makes `parse_qsl` split the query differently and drop the now
blank-valued `a`, so the key `a` is also not preserved. -/
theorem c8_counterexample :
    _update_url_params (str "http://x/p?a=%2526") [(str "z", PVal.str (str "1"))]
        = str "http://x/p?a=%26&z=1"
    ∧ _update_url_params (_update_url_params (str "http://x/p?a=%2526")
          [(str "z", PVal.str (str "1"))]) [(str "z", PVal.str (str "1"))]
        = str "http://x/p?z=1"
    ∧ _update_url_params (_update_url_params (str "http://x/p?a=%2526")
          [(str "z", PVal.str (str "1"))]) [(str "z", PVal.str (str "1"))]
        ≠ _update_url_params (str "http://x/p?a=%2526")
          [(str "z", PVal.str (str "1"))] := by
  refine ⟨by decide, by decide, by decide⟩

theorem mergedArgs_def (url : Str) (m : List (Str × PVal)) :
    mergedArgs url m
      = (pyUpdate ((pyDict (parse_qsl (urlparse (unquote url)).query)).map
          fun kv => (kv.1, PVal.str kv.2)) m).map
          fun kv => (kv.1, jsonConvertVal kv.2) := rfl

theorem update_url_params_def (url : Str) (m : List (Str × PVal)) :
    _update_url_params url m
      = geturl ⟨(urlparse (unquote url)).scheme, (urlparse (unquote url)).netloc,
          (urlparse (unquote url)).path, (urlparse (unquote url)).params,
          encoded_get_args url m, (urlparse (unquote url)).fragment⟩ := rfl

theorem encoded_get_args_def (url : Str) (m : List (Str × PVal)) :
    encoded_get_args url m = urlencodeSeq (mergedArgs url m) := rfl

/-- C8 (amended): restricted to benign inputs — a URL built from a
nonempty lowercase-ASCII scheme, a nonempty alphanumeric host, an
absolute path over alphanumerics and `/`, an existing query of distinct
alphanumeric nonempty keys and values, an alphanumeric (possibly empty)
fragment, and an override mapping of distinct alphanumeric nonempty keys
with nonempty-alphanumeric-string or boolean values — applying
`_update_url_params` twice with the same mapping yields the same URL as
applying it once; query keys present in the original URL are preserved
in the merged result; and the scheme, host (netloc), path and fragment
components are unchanged by merging.  (The unrestricted claim is false:
see the `%2526` counterexample, where the unconditional `unquote` of the
already-encoded URL changes how the query re-parses.) -/
theorem c8_benign_idempotence
    (scheme host path0 frag : Str) (qpairs : List (Str × Str))
    (m : List (Str × PVal))
    (hsch : scheme ≠ []) (hschL : ∀ c ∈ scheme, isAsciiLower c = true)
    (hhost : host ≠ []) (hhostB : Benign host)
    (hpath : ∀ c ∈ path0, PathChar c)
    (hfrag : Benign frag)
    (hq : qpairs ≠ []) (hqnd : (qpairs.map Prod.fst).Nodup)
    (hqb : ∀ kv ∈ qpairs, kv.1 ≠ [] ∧ Benign kv.1 ∧ kv.2 ≠ [] ∧ Benign kv.2)
    (hmnd : (m.map Prod.fst).Nodup)
    (hmb : ∀ kv ∈ m, kv.1 ≠ [] ∧ Benign kv.1 ∧
      ((∃ w, kv.2 = PVal.str w ∧ w ≠ [] ∧ Benign w) ∨ ∃ b, kv.2 = PVal.boolv b)) :
    _update_url_params
        (_update_url_params (mkUrl scheme host path0 (rawQuery qpairs) frag) m) m
      = _update_url_params (mkUrl scheme host path0 (rawQuery qpairs) frag) m
    ∧ (∀ k ∈ qpairs.map Prod.fst,
        k ∈ (parse_qsl (urlparse (_update_url_params
          (mkUrl scheme host path0 (rawQuery qpairs) frag) m)).query).map Prod.fst)
    ∧ (urlparse (_update_url_params
          (mkUrl scheme host path0 (rawQuery qpairs) frag) m)).scheme
        = (urlparse (mkUrl scheme host path0 (rawQuery qpairs) frag)).scheme
    ∧ (urlparse (_update_url_params
          (mkUrl scheme host path0 (rawQuery qpairs) frag) m)).netloc
        = (urlparse (mkUrl scheme host path0 (rawQuery qpairs) frag)).netloc
    ∧ (urlparse (_update_url_params
          (mkUrl scheme host path0 (rawQuery qpairs) frag) m)).path
        = (urlparse (mkUrl scheme host path0 (rawQuery qpairs) frag)).path
    ∧ (urlparse (_update_url_params
          (mkUrl scheme host path0 (rawQuery qpairs) frag) m)).fragment
        = (urlparse (mkUrl scheme host path0 (rawQuery qpairs) frag)).fragment := by
  set Q1 := rawQuery qpairs with hQ1def
  set url := mkUrl scheme host path0 Q1 frag with hurldef
  have hq1c : ∀ c ∈ Q1, QueryChar c := rawQuery_chars hqb
  have hunq1 : unquote url = url :=
    unquote_no_pct (pct_notMem_mkUrl hschL hhostB hpath hq1c hfrag)
  have hparse1 : urlparse url = ⟨scheme, host, '/' :: path0, [], Q1, frag⟩ :=
    urlparse_mkUrl hsch hschL hhostB hpath hq1c hfrag
  set base := qpairs.map (fun kv => (kv.1, PVal.str kv.2)) with hbdef
  set merged := (pyUpdate base m).map (fun kv => (kv.1, jsonConvertVal kv.2))
    with hmdef
  have hmerged : mergedArgs url m = merged := by
    rw [mergedArgs_def, hunq1, hparse1]
    have hbase : (pyDict (parse_qsl Q1)).map (fun kv => (kv.1, PVal.str kv.2))
        = base := by
      rw [hQ1def, parse_qsl_rawQuery hqb, pyDict_id_of_nodup hqnd]
    show (pyUpdate ((pyDict (parse_qsl Q1)).map fun kv => (kv.1, PVal.str kv.2)) m).map
        (fun kv => (kv.1, jsonConvertVal kv.2)) = merged
    rw [hbase]
  have hkeysbase : base.map Prod.fst = qpairs.map Prod.fst := keys_map_value _ _
  have hF1 : ∀ kv ∈ merged, ∃ w, kv.2 = PVal.str w ∧ w ≠ [] ∧ Benign w := by
    intro kv hkv
    rw [hmdef, List.mem_map] at hkv
    obtain ⟨kv0, hkv0, he⟩ := hkv
    rcases mem_pyUpdate hkv0 with hin | hin
    · rw [hbdef, List.mem_map] at hin
      obtain ⟨kvq, hkvq, he2⟩ := hin
      obtain ⟨_, _, hvne, hvb⟩ := hqb kvq hkvq
      refine ⟨kvq.2, ?_, hvne, hvb⟩
      rw [← he, ← he2]
      rfl
    · obtain ⟨_, _, hval⟩ := hmb kv0 hin
      rcases hval with ⟨w, hw, hwne, hwb⟩ | ⟨b, hb⟩
      · refine ⟨w, ?_, hwne, hwb⟩
        rw [← he, hw]
        rfl
      · refine ⟨jdumpsBool b, ?_, ?_, ?_⟩
        · rw [← he, hb]
          rfl
        · cases b <;> decide
        · cases b <;> decide
  have hF1k : ∀ kv ∈ merged, kv.1 ≠ [] ∧ Benign kv.1 := by
    intro kv hkv
    rw [hmdef, List.mem_map] at hkv
    obtain ⟨kv0, hkv0, he⟩ := hkv
    have hfst : kv.1 = kv0.1 := by rw [← he]
    rcases mem_pyUpdate hkv0 with hin | hin
    · rw [hbdef, List.mem_map] at hin
      obtain ⟨kvq, hkvq, he2⟩ := hin
      obtain ⟨hkne, hkb, _, _⟩ := hqb kvq hkvq
      have : kv0.1 = kvq.1 := by rw [← he2]
      rw [hfst, this]
      exact ⟨hkne, hkb⟩
    · obtain ⟨hkne, hkb, _⟩ := hmb kv0 hin
      rw [hfst]
      exact ⟨hkne, hkb⟩
  have hkeysm : merged.map Prod.fst = (pyUpdate base m).map Prod.fst := by
    rw [hmdef]
    exact keys_map_value _ _
  have hnodupm : (merged.map Prod.fst).Nodup := by
    rw [hkeysm]
    exact nodupKeys_pyUpdate (by rw [hkeysbase]; exact hqnd)
  have hsupq : ∀ k ∈ qpairs.map Prod.fst, k ∈ merged.map Prod.fst := by
    intro k hk
    rw [hkeysm]
    exact keys_pyUpdate_superset (by rw [hkeysbase]; exact hk)
  have hsupm : ∀ k ∈ m.map Prod.fst, k ∈ merged.map Prod.fst := by
    intro k hk
    rw [hkeysm]
    exact keys_pyUpdate_superset_args hk
  have hmne : merged ≠ [] := by
    cases hqp : qpairs with
    | nil => exact absurd hqp hq
    | cons kv0 rest =>
      have hk : kv0.1 ∈ qpairs.map Prod.fst := by
        rw [hqp]
        exact List.mem_map_of_mem Prod.fst (List.mem_cons_self _ _)
      have := hsupq kv0.1 hk
      intro hnil
      rw [hnil] at this
      simp at this
  set stripped := merged.map (fun kv => (kv.1, pvalStr kv.2)) with hsdef
  have hstrb : ∀ kv ∈ stripped, kv.1 ≠ [] ∧ Benign kv.1 ∧ kv.2 ≠ [] ∧ Benign kv.2 := by
    intro kv hkv
    rw [hsdef, List.mem_map] at hkv
    obtain ⟨kv0, hkv0, he⟩ := hkv
    obtain ⟨hkne, hkb⟩ := hF1k kv0 hkv0
    obtain ⟨w, hw, hwne, hwb⟩ := hF1 kv0 hkv0
    have h1 : kv.1 = kv0.1 := by rw [← he]
    have h2 : kv.2 = w := by rw [← he]; show pvalStr kv0.2 = w; rw [hw]; rfl
    rw [h1, h2]
    exact ⟨hkne, hkb, hwne, hwb⟩
  have hkeysstr : stripped.map Prod.fst = merged.map Prod.fst := by
    rw [hsdef]
    exact keys_map_value _ _
  have henc : urlencodeSeq merged = rawQuery stripped := by
    refine urlencodeSeq_eq_rawQuery ?_
    intro kv hkv
    obtain ⟨w, hw, _, hwb⟩ := hF1 kv hkv
    exact ⟨w, hw, (hF1k kv hkv).2, hwb⟩
  set Q2 := rawQuery stripped with hQ2def
  have hQ2c : ∀ c ∈ Q2, QueryChar c := rawQuery_chars hstrb
  have hQ2ne : Q2 ≠ [] := by
    refine rawQuery_ne_nil ?_
    rw [hsdef]
    intro hc
    rw [List.map_eq_nil_iff] at hc
    exact hmne hc
  have hencQ : encoded_get_args url m = Q2 := by
    rw [encoded_get_args_def, hmerged, henc]
  have hu1 : _update_url_params url m = mkUrl scheme host path0 Q2 frag := by
    rw [update_url_params_def, hunq1, hparse1]
    show geturl ⟨scheme, host, '/' :: path0, [], encoded_get_args url m, frag⟩ = _
    rw [hencQ]
    exact geturl_mk hsch hhost hQ2ne
  have hunq2 : unquote (mkUrl scheme host path0 Q2 frag)
      = mkUrl scheme host path0 Q2 frag :=
    unquote_no_pct (pct_notMem_mkUrl hschL hhostB hpath hQ2c hfrag)
  have hparse2 : urlparse (mkUrl scheme host path0 Q2 frag)
      = ⟨scheme, host, '/' :: path0, [], Q2, frag⟩ :=
    urlparse_mkUrl hsch hschL hhostB hpath hQ2c hfrag
  have hbase2 : (pyDict (parse_qsl Q2)).map (fun kv => (kv.1, PVal.str kv.2))
      = merged := by
    rw [hQ2def, parse_qsl_rawQuery hstrb,
      pyDict_id_of_nodup (by rw [hkeysstr]; exact hnodupm), hsdef, List.map_map]
    refine map_id_mem ?_
    intro kv hkv
    obtain ⟨w, hw, _, _⟩ := hF1 kv hkv
    show (kv.1, PVal.str (pvalStr kv.2)) = kv
    rw [hw]
    show (kv.1, PVal.str w) = kv
    rw [← hw]
  have hmerged2 : mergedArgs (mkUrl scheme host path0 Q2 frag) m = merged := by
    rw [mergedArgs_def, hunq2, hparse2]
    show (pyUpdate ((pyDict (parse_qsl Q2)).map fun kv => (kv.1, PVal.str kv.2)) m).map
        (fun kv => (kv.1, jsonConvertVal kv.2)) = merged
    rw [hbase2]
    refine list_eq_of_keys_lookup ?_ ?_ ?_
    · rw [keys_map_value]
      exact keys_pyUpdate_eq hsupm
    · rw [keys_map_value]
      rw [keys_pyUpdate_eq hsupm]
      exact hnodupm
    · intro k
      rw [lookup_map_value]
      by_cases hkm : k ∈ m.map Prod.fst
      · obtain ⟨v, hvm⟩ : ∃ v, (k, v) ∈ m := by
          rw [List.mem_map] at hkm
          obtain ⟨kv, hkv, he⟩ := hkm
          exact ⟨kv.2, by rw [← he]; simpa using hkv⟩
        rw [lookup_pyUpdate_mem hmnd hvm]
        rw [hmdef, lookup_map_value, lookup_pyUpdate_mem hmnd hvm]
      · rw [lookup_pyUpdate_notmem hkm]
        cases hlk : List.lookup k merged with
        | none => rfl
        | some w =>
          obtain ⟨w', hw', _, _⟩ := hF1 _ (mem_of_lookup_eq_some hlk)
          simp only [Option.map_some']
          show some (jsonConvertVal w) = some w
          have hww : w = PVal.str w' := hw'
          rw [hww]
          rfl
  have hu2 : _update_url_params (mkUrl scheme host path0 Q2 frag) m
      = mkUrl scheme host path0 Q2 frag := by
    rw [update_url_params_def, hunq2, hparse2]
    show geturl ⟨scheme, host, '/' :: path0, [],
      encoded_get_args (mkUrl scheme host path0 Q2 frag) m, frag⟩ = _
    rw [encoded_get_args_def, hmerged2, henc]
    exact geturl_mk hsch hhost hQ2ne
  refine ⟨?_, ?_, ?_, ?_, ?_, ?_⟩
  · rw [hu1, hu2, ← hu1]
  · intro k hk
    rw [hu1, hparse2]
    show k ∈ (parse_qsl Q2).map Prod.fst
    rw [hQ2def, parse_qsl_rawQuery hstrb, hkeysstr]
    exact hsupq k hk
  · rw [hu1, hparse2, hparse1]
  · rw [hu1, hparse2, hparse1]
  · rw [hu1, hparse2, hparse1]
  · rw [hu1, hparse2, hparse1]

/-- Witness for C8: the benign URL `http://example/a?a=1&b=2` with
mapping `{b: "9", z: "3"}` merges idempotently, preserves key `a`, and
keeps scheme, host, path and fragment. -/
theorem c8_benign_idempotence_witness :
    _update_url_params
        (_update_url_params (mkUrl (str "http") (str "example") (str "a")
          (rawQuery [(str "a", str "1"), (str "b", str "2")]) [])
          [(str "b", PVal.str (str "9")), (str "z", PVal.str (str "3"))])
        [(str "b", PVal.str (str "9")), (str "z", PVal.str (str "3"))]
      = _update_url_params (mkUrl (str "http") (str "example") (str "a")
          (rawQuery [(str "a", str "1"), (str "b", str "2")]) [])
          [(str "b", PVal.str (str "9")), (str "z", PVal.str (str "3"))]
    ∧ (str "a") ∈ (parse_qsl (urlparse (_update_url_params
        (mkUrl (str "http") (str "example") (str "a")
          (rawQuery [(str "a", str "1"), (str "b", str "2")]) [])
        [(str "b", PVal.str (str "9")), (str "z", PVal.str (str "3"))])).query).map
        Prod.fst := by
  have h := c8_benign_idempotence (str "http") (str "example") (str "a") []
    [(str "a", str "1"), (str "b", str "2")]
    [(str "b", PVal.str (str "9")), (str "z", PVal.str (str "3"))]
    (by decide) (by decide) (by decide) (by decide) (by decide) (by decide)
    (by decide) (by decide) (by decide) (by decide)
    (by
      intro kv hkv
      rcases List.mem_cons.1 hkv with h | h
      · subst h
        exact ⟨by decide, by decide, Or.inl ⟨str "9", rfl, by decide, by decide⟩⟩
      · rcases List.mem_cons.1 h with h | h
        · subst h
          exact ⟨by decide, by decide, Or.inl ⟨str "3", rfl, by decide, by decide⟩⟩
        · simp at h)
  exact ⟨h.1, h.2.1 (str "a") (by decide)⟩

end CurlCffi
